import Mathlib

/-
Verification development for the kv-orm repository: a Redis-backed ORM with
Zod validation, automatic id/createdAt/updatedAt fields, and optional
secondary indexes of two kinds (equality "set" indexes and ordered "zset"
indexes).

The shallow embedding below translates the current source files
(src/src/orm/index.ts, src/src/orm/methods/create.ts, .../update.ts,
.../delete.ts, .../get.ts, .../find.ts) into Lean definitions:

  - JavaScript runtime values occurring as entity field values are the
    inductive type Value (strings, numbers, booleans, Date objects).
    Numbers are modelled as integers: none of the verified properties
    depends on floating-point rounding, and NaN never arises for values
    of type Value in the verified paths.
  - The Redis store is a record of three association lists: plain string
    keys holding serialized entities, set keys, and sorted-set keys.
    JSON.stringify followed by schema re-parsing is modelled as the
    identity on well-typed entities; the one observable consequence of
    reparsing, namely that Date-valued fields of a scanned entity are
    freshly constructed objects, is captured in jsStrictEq below.
  - A MULTI/EXEC pipeline is a list of RedisOp commands applied in one
    atomic step by execBatch; the WATCH-induced abort of a conditional
    EXEC is an explicit boolean input of the update operations.
  - Hooks, the ioredis client and Deno plumbing are external collaborators
    and are not modelled; they perform no store mutation in the source.
-/

set_option autoImplicit false

namespace KvOrm

/-! ### Values and value types -/

/-- Runtime value of an entity field: string, number, boolean, or a Date
object identified by its epoch-milliseconds timestamp. -/
inductive Value where
  | str  (s : String)
  | num  (n : Int)
  | bool (b : Bool)
  | date (t : Int)
  deriving DecidableEq, Repr

/-- The TypeScript-level type of a field value. -/
inductive VType where
  | str
  | num
  | bool
  | date
  deriving DecidableEq, Repr

/-- Type tag of a runtime value. -/
def typeTag : Value → VType
  | .str _  => .str
  | .num _  => .num
  | .bool _ => .bool
  | .date _ => .date

/-- JavaScript strict equality (===) between a field value read from a
freshly parsed entity and a value supplied by the caller.  Strings,
numbers and booleans compare by value.  Two Date objects compare by
reference; the parsed entity's Date fields are freshly constructed by
z.coerce.date (new Date(input)), so they are never the caller's object
and the comparison is always false. -/
def jsStrictEq : Value → Value → Bool
  | .str a,  .str b  => a == b
  | .num a,  .num b  => a == b
  | .bool a, .bool b => a == b
  | _,       _       => false

/-- JavaScript Number(value) coercion for the non-string values that the
zset index branch can receive (a Date is handled by getTime before this
conversion in the source; both paths are folded here).  A string never
reaches this conversion in the zset branches because typeof value ===
"string" is tested first. -/
def jsNumberOfValue : Value → Option Int
  | .num n  => some n
  | .date t => some t
  | .bool b => some (if b then 1 else 0)
  | .str _  => none

/-! ### Decimal serialization

The source serializes index values with String(value) and Date values with
toISOString().  Only two facts about these serializations are used by the
spec (section 4.2: determinism, and injectivity on values of one type), so
the decimal rendering is built from an explicitly invertible digit
encoder. -/

/-- Character for one decimal digit. -/
def digitCharOf : Nat → Char
  | 0 => '0' | 1 => '1' | 2 => '2' | 3 => '3' | 4 => '4'
  | 5 => '5' | 6 => '6' | 7 => '7' | 8 => '8' | 9 => '9'
  | _ => '?'

/-- Numeric value of one decimal digit character. -/
def digitValOf (c : Char) : Nat :=
  if c = '0' then 0 else if c = '1' then 1 else if c = '2' then 2
  else if c = '3' then 3 else if c = '4' then 4 else if c = '5' then 5
  else if c = '6' then 6 else if c = '7' then 7 else if c = '8' then 8
  else if c = '9' then 9 else 10

/-- Little-endian decimal digits of n, with fuel for structural recursion. -/
def natDecAux : Nat → Nat → List Char
  | 0, _ => []
  | fuel + 1, n => if n = 0 then [] else digitCharOf (n % 10) :: natDecAux fuel (n / 10)

/-- Decimal rendering of a natural number, as printed by String(n). -/
def natDec (n : Nat) : String :=
  if n = 0 then "0" else ⟨(natDecAux n n).reverse⟩

/-- Decimal rendering of an integer, as printed by String(n). -/
def intDec (i : Int) : String :=
  if i < 0 then "-" ++ natDec i.natAbs else natDec i.natAbs

/-- ISO-8601 text of a Date, as produced by toISOString().  Modelled as an
injective image of the epoch-millisecond timestamp: only determinism and
injectivity of this serialization are relied upon (spec section 4.2), not
the calendar arithmetic of the concrete digit layout. -/
def isoOfMillis (t : Int) : String :=
  intDec t ++ "Z"

/-- normalizeIndexValue from src/src/orm/index.ts: Date values as ISO-8601
text, numbers and booleans as decimal text via String(value), strings
as-is. -/
def normalizeIndexValue : Value → String
  | .date t => isoOfMillis t
  | .num n  => intDec n
  | .bool b => if b then "true" else "false"
  | .str s  => s

/-! ### Entities, schemas, inputs -/

/-- A fully populated entity: the three reserved fields plus the
entity-type-specific fields (association list from field name to value).
Timestamps are epoch milliseconds. -/
structure Entity where
  id        : String
  createdAt : Int
  updatedAt : Int
  fields    : List (String × Value)
  deriving DecidableEq, Repr

/-- Association-list lookup (first match wins, like a JS object read). -/
def alookup {α : Type} (l : List (String × α)) (k : String) : Option α :=
  match l with
  | [] => none
  | (k', v) :: t => if k' = k then some v else alookup t k

/-- Value of entity[field]: the reserved fields are real properties of the
entity object (id is a string, the timestamps are Dates), the rest live in
the schema-specific fields. -/
def entityField (e : Entity) (f : String) : Option Value :=
  if f = "id" then some (.str e.id)
  else if f = "createdAt" then some (.date e.createdAt)
  else if f = "updatedAt" then some (.date e.updatedAt)
  else alookup e.fields f

/-- Partial input record: z.input of the schema for create, or a
Partial patch for update.  An absent Option / a missing list entry models
an absent object key (undefined). -/
structure InputRec where
  id        : Option String
  createdAt : Option Int
  updatedAt : Option Int
  fields    : List (String × Value)
  deriving DecidableEq, Repr

/-- Declared value types of the entity-type-specific schema fields; the
reserved fields id/createdAt/updatedAt are implicit (KvOrmSchema refuses
shapes that redeclare them). -/
structure SchemaM where
  fields : List (String × VType)
  deriving DecidableEq, Repr

/-- Kind of a declared secondary index. -/
inductive IndexKind where
  | set
  | zset
  deriving DecidableEq, Repr

/-- The per-entity-type configuration: key prefix, schema, declared
indexed fields. -/
structure CtxM where
  pfx           : String
  schema        : SchemaM
  indexedFields : List (String × IndexKind)
  deriving DecidableEq, Repr

/-! ### Keys -/

/-- Primary key of an entity id: prefix:id. -/
def keyOf (ctx : CtxM) (id : String) : String :=
  ctx.pfx ++ ":" ++ id

/-- Membership Set key: prefix:all. -/
def allKey (ctx : CtxM) : String :=
  ctx.pfx ++ ":all"

/-- Equality-index key for one field value:
prefix:idx:set:field:serializedValue. -/
def setIndexKey (ctx : CtxM) (field : String) (v : Value) : String :=
  ctx.pfx ++ ":idx:set:" ++ field ++ ":" ++ normalizeIndexValue v

/-- Ordered-index key for one field: prefix:idx:zset:field. -/
def zsetIndexKey (ctx : CtxM) (field : String) : String :=
  ctx.pfx ++ ":idx:zset:" ++ field

/-! ### UUID validation (z.uuid) -/

/-- Hexadecimal digit test. -/
def isHexChar (c : Char) : Bool :=
  c.isDigit || ('a' ≤ c && c ≤ 'f') || ('A' ≤ c && c ≤ 'F')

/-- Characters admissible in an RFC-9562 UUID string. -/
def uuidCharOk (c : Char) : Bool :=
  isHexChar c || c = '-'

/-- Validation of the opaque identifier format, mirroring z.uuid():
36 characters of hex digits and exactly four dashes at positions
8, 13, 18, 23, with a version digit 1-8 and variant in 89abAB, plus the
nil and max UUIDs as special cases. -/
def isValidUuid (s : String) : Bool :=
  s = "00000000-0000-0000-0000-000000000000" ||
  s = "ffffffff-ffff-ffff-ffff-ffffffffffff" ||
  (s.data.length = 36 &&
   s.data.all uuidCharOk &&
   (s.data.filter (fun c => c = '-')).length = 4 &&
   s.data.get? 8 = some '-' && s.data.get? 13 = some '-' &&
   s.data.get? 18 = some '-' && s.data.get? 23 = some '-' &&
   (s.data.get? 14).elim false (fun c => c ∈ ['1','2','3','4','5','6','7','8']) &&
   (s.data.get? 19).elim false (fun c => c ∈ ['8','9','a','b','A','B']))

/-! ### Errors -/

/-- Failure taxonomy of the write/read paths.  In the source, validation
failures are a ZodError or the Error thrown for a malformed UUID,
notFound is the NotFoundError class, and conflict is the Error thrown by
updateOrFail when the conditional EXEC was aborted (message "Optimistic
locking failed for key ...; Please retry the operation."). -/
inductive KvError where
  | validation (msg : String)
  | notFound (pfx id : String)
  | conflict (key : String)
  deriving DecidableEq, Repr

/-! ### Schema parse and entity normalization -/

/-- Candidate record assembled by normalizeEntity before schema parsing. -/
structure Candidate where
  id        : String
  createdAt : Int
  updatedAt : Int
  fields    : List (String × Value)
  deriving DecidableEq, Repr

/-- entitySchema.parse on a fully-populated candidate: the reserved id is
checked against the uuid format (baseFields declares z.uuid()), every
declared schema field must be present with the declared type, and the
result strips undeclared keys, as Zod object parsing does by default. -/
def entityParse (sch : SchemaM) (c : Candidate) : Except KvError Entity :=
  if isValidUuid c.id &&
     sch.fields.all (fun ft =>
       match alookup c.fields ft.1 with
       | some w => typeTag w == ft.2
       | none => false) then
    .ok { id := c.id, createdAt := c.createdAt, updatedAt := c.updatedAt,
          fields := sch.fields.filterMap (fun ft =>
            (alookup c.fields ft.1).map (fun w => (ft.1, w))) }
  else
    .error (.validation "schema validation failed")

/-- normalizeEntity from src/src/orm/index.ts.  genId stands for the
randomUUID() call, now for new Date().  A supplied truthy id (a nonempty
string) must pass the uuid check or the operation throws; otherwise a
fresh id is generated.  createdAt is now for a new entity and preserved
from the data for an update (?? now); updatedAt is always now. -/
def normalizeEntityM (ctx : CtxM) (data : InputRec) (isNew : Bool)
    (now : Int) (genId : String) : Except KvError Entity :=
  let idv := data.id.getD ""
  if idv ≠ "" then
    if isValidUuid idv then
      entityParse ctx.schema
        { id := idv,
          createdAt := if isNew then now else data.createdAt.getD now,
          updatedAt := now, fields := data.fields }
    else
      .error (.validation ("Invalid UUID provided for id: " ++ idv))
  else
    entityParse ctx.schema
      { id := genId,
        createdAt := if isNew then now else data.createdAt.getD now,
        updatedAt := now, fields := data.fields }

/-! ### The store -/

/-- State of the Redis keyspace reachable by this entity type.  The three
Redis value types used by the ORM are kept in separate tables; a Redis key
holds at most one type, and all keys the ORM writes are distinct across
the tables as long as record ids are well-formed. -/
structure Store where
  kvStrings : List (String × Entity)
  sets      : List (String × List String)
  zsets     : List (String × List (String × Int))
  deriving DecidableEq, Repr

/-- Members of a set key (SMEMBERS); a missing key is the empty set. -/
def smembersS (s : Store) (k : String) : List String :=
  (alookup s.sets k).getD []

/-- Member/score pairs of a sorted-set key. -/
def zmembersS (s : Store) (k : String) : List (String × Int) :=
  (alookup s.zsets k).getD []

/-- SUNION of several set keys (distinctness of the result is immaterial
to every property below, which only inspects membership). -/
def sunionS (s : Store) (keys : List String) : List String :=
  (keys.map (smembersS s)).flatten

/-- SDIFF base badKeys: members of the base set that belong to none of the
other sets. -/
def sdiffS (s : Store) (base : String) (badKeys : List String) : List String :=
  (smembersS s base).filter (fun i => !(badKeys.any (fun k => (smembersS s k).contains i)))

/-! ### Pipeline commands and atomic execution -/

/-- One command queued on a MULTI pipeline by the ORM. -/
inductive RedisOp where
  | set  (k : String) (e : Entity)
  | del  (k : String)
  | sadd (k m : String)
  | srem (k m : String)
  | zadd (k : String) (score : Int) (m : String)
  | zrem (k m : String)
  deriving DecidableEq, Repr

/-- Insert or replace a key in an association list. -/
def aupsert {α : Type} (l : List (String × α)) (k : String) (v : α) :
    List (String × α) :=
  match l with
  | [] => [(k, v)]
  | (k', v') :: t => if k' = k then (k, v) :: t else (k', v') :: aupsert t k v

/-- Remove a key from an association list. -/
def aremove {α : Type} (l : List (String × α)) (k : String) :
    List (String × α) :=
  l.filter (fun p => p.1 ≠ k)

/-- Apply one command, returning the new store and the integer reply
Redis gives for the command (only the DEL reply is ever inspected by the
source; the replies of the other commands are their usual counts). -/
def applyOp (s : Store) : RedisOp → Store × Int
  | .set k e =>
      ({ s with kvStrings := aupsert s.kvStrings k e }, 0)
  | .del k =>
      ({ s with kvStrings := aremove s.kvStrings k },
       if (alookup s.kvStrings k).isSome then 1 else 0)
  | .sadd k m =>
      let cur := smembersS s k
      ({ s with sets := aupsert s.sets k (if cur.contains m then cur else cur ++ [m]) },
       if cur.contains m then 0 else 1)
  | .srem k m =>
      let cur := smembersS s k
      ({ s with sets := aupsert s.sets k (cur.filter (fun x => x ≠ m)) },
       if cur.contains m then 1 else 0)
  | .zadd k score m =>
      let cur := zmembersS s k
      ({ s with zsets := aupsert s.zsets k ((cur.filter (fun p => p.1 ≠ m)) ++ [(m, score)]) },
       if cur.any (fun p => p.1 = m) then 0 else 1)
  | .zrem k m =>
      let cur := zmembersS s k
      ({ s with zsets := aupsert s.zsets k (cur.filter (fun p => p.1 ≠ m)) },
       if cur.any (fun p => p.1 = m) then 1 else 0)

/-- Atomic execution of a MULTI batch: all commands apply in one
indivisible step (the contract of the store's EXEC primitive), each
producing its reply. -/
def execBatch (s : Store) : List RedisOp → Store × List Int
  | [] => (s, [])
  | op :: rest =>
      ((execBatch (applyOp s op).1 rest).1,
       (applyOp s op).2 :: (execBatch (applyOp s op).1 rest).2)

/-! ### Index mutation (updateIndexes / deleteIndexes) -/

/-- JavaScript strict inequality oldValue !== value between two possibly
absent field values, both read from freshly parsed/constructed entities.
undefined !== undefined is false; Date fields of the old and the new
entity are distinct objects, hence always strictly unequal. -/
def jsStrictNeqOpt (a b : Option Value) : Bool :=
  match a, b with
  | none, none => false
  | some x, some y => !(jsStrictEq x y)
  | _, _ => true

/-- Commands queued by updateIndexes (src/src/orm/index.ts, current
version) for one entity: always SADD to the Membership Set; for each
declared set-indexed field, on update remove the id from the old value's
entry when the value strictly changed (skipping an absent old value), and
add it to the new value's entry when present; for each declared
zset-indexed field, always ZADD the new representation (a zero-score
value||id member for strings, the id scored by the numeric value
otherwise, skipped when the score is NaN) — no removal of the old member
and no unchanged-value check are performed. -/
def updateIndexesFieldOps (ctx : CtxM) (e : Entity) (isUpdate : Bool)
    (old : Option Entity) (fk : String × IndexKind) : List RedisOp :=
  let value := entityField e fk.1
  let oldValue := if isUpdate then old.bind (fun o => entityField o fk.1) else none
  match fk.2 with
  | .set =>
      (if isUpdate && jsStrictNeqOpt oldValue value then
        match oldValue with
        | some ov => [.srem (setIndexKey ctx fk.1 ov) e.id]
        | none => []
      else []) ++
      (match value with
       | some v => [.sadd (setIndexKey ctx fk.1 v) e.id]
       | none => [])
  | .zset =>
      match value with
      | some (.str sv) => [.zadd (zsetIndexKey ctx fk.1) 0 (sv ++ "||" ++ e.id)]
      | some v =>
          match jsNumberOfValue v with
          | some score => [.zadd (zsetIndexKey ctx fk.1) score e.id]
          | none => []
      | none => []

def updateIndexesOps (ctx : CtxM) (e : Entity) (isUpdate : Bool)
    (old : Option Entity) : List RedisOp :=
  .sadd (allKey ctx) e.id ::
  (ctx.indexedFields.map (updateIndexesFieldOps ctx e isUpdate old)).flatten

/-- Commands queued by deleteIndexes: SREM from the Membership Set, and
for each declared indexed field remove the entity's current entry (for
zset fields the value||id member when the value is a string, the bare id
otherwise). -/
def deleteIndexesFieldOps (ctx : CtxM) (e : Entity) (fk : String × IndexKind) :
    List RedisOp :=
  let value := entityField e fk.1
  match fk.2 with
  | .set =>
      match value with
      | some v => [.srem (setIndexKey ctx fk.1 v) e.id]
      | none => []
  | .zset =>
      match value with
      | some (.str sv) => [.zrem (zsetIndexKey ctx fk.1) (sv ++ "||" ++ e.id)]
      | _ => [.zrem (zsetIndexKey ctx fk.1) e.id]

def deleteIndexesOps (ctx : CtxM) (e : Entity) : List RedisOp :=
  .srem (allKey ctx) e.id ::
  (ctx.indexedFields.map (deleteIndexesFieldOps ctx e)).flatten

/-- Representation of an entity's field in its ordered index, when one is
written: the value||id member at score 0 for a string value, the id at
the numeric score otherwise. -/
def zencode (e : Entity) (f : String) : Option (String × Int) :=
  match entityField e f with
  | some (.str sv) => some (sv ++ "||" ++ e.id, 0)
  | some v => (jsNumberOfValue v).map (fun n => (e.id, n))
  | none => none

end KvOrm

namespace KvOrm

/-! ### Point reads and scans -/

/-- maybeGet: read the primary record of an id and parse it; the JSON
round-trip of a well-typed record is the identity (Date fields come back
as fresh objects with the same timestamp). -/
def maybeGetM (ctx : CtxM) (s : Store) (id : String) : Option Entity :=
  alookup s.kvStrings (keyOf ctx id)

/-- Keys returned by scanKeys with the default pattern "*": every key of
the keyspace that begins with prefix followed by a colon, whatever its
Redis type (SCAN enumerates the whole keyspace; all call sites relevant
here use the default pattern). -/
def scanKeysM (ctx : CtxM) (s : Store) : List String :=
  (s.kvStrings.map Prod.fst ++ s.sets.map Prod.fst ++ s.zsets.map Prod.fst).filter
    (fun k => (ctx.pfx ++ ":").data.isPrefixOf k.data)

/-- getAll with the default pattern: MGET over the scanned keys; a key
holding a non-string value (an index set or zset caught by the pattern)
replies nil to MGET and is filtered out, the rest parse back to their
entities. -/
def getAllM (ctx : CtxM) (s : Store) : List Entity :=
  (scanKeysM ctx s).filterMap (fun k => alookup s.kvStrings k)

/-! ### Write operations -/

/-- create (src/src/orm/methods/create.ts): normalize the input, then
queue the primary SET and the index commands of updateIndexes on one
MULTI and execute it atomically.  Returns the outcome, the resulting
store, and the batch that was submitted (none when validation aborted
before any store interaction). -/
def createM (ctx : CtxM) (s : Store) (now : Int) (genId : String)
    (data : InputRec) : Except KvError Entity × Store × Option (List RedisOp) :=
  match normalizeEntityM ctx data true now genId with
  | .error err => (.error err, s, none)
  | .ok e =>
      let batch := .set (keyOf ctx e.id) e :: updateIndexesOps ctx e false none
      (.ok e, (execBatch s batch).1, some batch)

/-- Merge {...existing, ...patch}: a key present in the patch overrides
the existing entity's value, every other key keeps the existing value.
The result is the input record handed to normalizeEntity by update. -/
def mergeFields (base patchF : List (String × Value)) : List (String × Value) :=
  base.map (fun kv => (kv.1, (alookup patchF kv.1).getD kv.2)) ++
  patchF.filter (fun kv => (alookup base kv.1).isNone)

/-- Spread of a patch over an existing entity, as an input record. -/
def mergeForUpdate (e : Entity) (p : InputRec) : InputRec :=
  { id := some (p.id.getD e.id),
    createdAt := some (p.createdAt.getD e.createdAt),
    updatedAt := some (p.updatedAt.getD e.updatedAt),
    fields := mergeFields e.fields p.fields }

/-- update (src/src/orm/methods/update.ts): WATCH the primary key, read
the record (null result when absent), normalize the merged record with
isNew = false, queue the primary SET plus updateIndexes (passing the
prior record) on one MULTI, and EXEC conditionally.  sRead is the store
at the read, sExec the store when EXEC runs; aborted states that the
watched key was modified in between, in which case EXEC applies nothing
and the source returns null without retrying.  The function returns the
outcome, the resulting store, and the submitted batch. -/
def updateM (ctx : CtxM) (sRead sExec : Store) (aborted : Bool)
    (now : Int) (genId : String) (id : String) (patch : InputRec) :
    Except KvError (Option Entity) × Store × Option (List RedisOp) :=
  match maybeGetM ctx sRead id with
  | none => (.ok none, sExec, none)
  | some existing =>
      match normalizeEntityM ctx (mergeForUpdate existing patch) false now genId with
      | .error err => (.error err, sExec, none)
      | .ok u =>
          let batch := .set (keyOf ctx u.id) u :: updateIndexesOps ctx u true (some existing)
          if aborted then (.ok none, sExec, some batch)
          else (.ok (some u), (execBatch sExec batch).1, some batch)

/-- updateOrFail: as update, but a missing record raises NotFoundError
(through get) and an aborted conditional EXEC raises the
optimistic-locking Error — the spec taxonomy's ConflictError — instead of
returning null.  No retry is attempted in either case. -/
def updateOrFailM (ctx : CtxM) (sRead sExec : Store) (aborted : Bool)
    (now : Int) (genId : String) (id : String) (patch : InputRec) :
    Except KvError Entity × Store × Option (List RedisOp) :=
  match maybeGetM ctx sRead id with
  | none => (.error (.notFound ctx.pfx id), sExec, none)
  | some existing =>
      match normalizeEntityM ctx (mergeForUpdate existing patch) false now genId with
      | .error err => (.error err, sExec, none)
      | .ok u =>
          let batch := .set (keyOf ctx u.id) u :: updateIndexesOps ctx u true (some existing)
          if aborted then (.error (.conflict (keyOf ctx id)), sExec, some batch)
          else (.ok u, (execBatch sExec batch).1, some batch)

/-- deleteEntity (src/src/orm/methods/delete.ts): read the record; when
absent return false without touching the store (no batch is built); when
present queue the primary DEL plus deleteIndexes on one MULTI, execute it
atomically, and report success from the DEL reply. -/
def deleteM (ctx : CtxM) (s : Store) (id : String) :
    Bool × Store × Option (List RedisOp) :=
  match maybeGetM ctx s id with
  | none => (false, s, none)
  | some e =>
      let batch := .del (keyOf ctx id) :: deleteIndexesOps ctx e
      let out := execBatch s batch
      (out.2.headD 0 = 1, out.1, some batch)

/-! ### Query execution -/

/-- Supported operators of findWhere. -/
inductive Operator where
  | eq
  | ne
  | lt
  | lte
  | gt
  | gte
  | like
  | inOp
  | nin
  deriving DecidableEq, Repr

/-- Operators legal for a field of the given TypeScript type
(the OperatorFor type of src/src/types.ts: numbers and Dates get the
ordering set, strings get like, everything else only
equality/membership). -/
def operatorSupportedFor (τ : VType) (op : Operator) : Bool :=
  match τ, op with
  | .num, _ => op != .like
  | .date, _ => op != .like
  | .str, op => op == .eq || op == .ne || op == .like || op == .inOp || op == .nin
  | .bool, op => op == .eq || op == .ne || op == .inOp || op == .nin

/-- The value argument of findWhere: V | V[]. -/
inductive QueryVal where
  | single (v : Value)
  | array (vs : List Value)
  deriving DecidableEq, Repr

/-- String(value) coercion of the query value as it lands inside the
equality-index key template: a plain value serializes as in
normalizeIndexValue, an array joins its elements with commas. -/
def qvString : QueryVal → String
  | .single v => normalizeIndexValue v
  | .array vs => String.intercalate "," (vs.map normalizeIndexValue)

/-- Equality-index key with the raw query value interpolated. -/
def setIndexKeyQ (ctx : CtxM) (field : String) (value : QueryVal) : String :=
  ctx.pfx ++ ":idx:set:" ++ field ++ ":" ++ qvString value

/-- Number(value) / getTime() coercion of a query value in the numeric
zset branch.  none models NaN: the source would then interpolate NaN into
the range bound and the store would reject the command; no verified
property reaches this case (a string query value never enters the
numeric branch, and the range theorems require numeric operands). -/
def jsNumberOfQuery : QueryVal → Option Int
  | .single v => jsNumberOfValue v
  | .array _ => none

/-- One bound of ZRANGEBYSCORE. -/
inductive ScoreBound where
  | negInf
  | posInf
  | incl (n : Int)
  | excl (n : Int)
  deriving DecidableEq, Repr

/-- Score satisfies a lower bound. -/
def scoreGeB : ScoreBound → Int → Bool
  | .negInf, _ => true
  | .posInf, _ => false
  | .incl n, sc => n ≤ sc
  | .excl n, sc => n < sc

/-- Score satisfies an upper bound. -/
def scoreLeB : ScoreBound → Int → Bool
  | .negInf, _ => false
  | .posInf, _ => true
  | .incl n, sc => sc ≤ n
  | .excl n, sc => sc < n

/-- ZRANGEBYSCORE: members whose score lies within the bounds (Redis
returns them sorted by score; every property below is stated through
membership, for which the enumeration order is immaterial). -/
def zrangebyscoreS (s : Store) (k : String) (lo hi : ScoreBound) : List String :=
  ((zmembersS s k).filter (fun p => scoreGeB lo p.2 && scoreLeB hi p.2)).map Prod.fst

/-- One bound of ZRANGEBYLEX ("-", "+", "[x", "(x"). -/
inductive LexBound where
  | negInf
  | posInf
  | incl (x : String)
  | excl (x : String)
  deriving DecidableEq, Repr

/-- Member satisfies a lexicographic lower bound. -/
def lexGeB : LexBound → String → Bool
  | .negInf, _ => true
  | .posInf, _ => false
  | .incl x, m => !(decide (m < x))
  | .excl x, m => decide (x < m)

/-- Member satisfies a lexicographic upper bound. -/
def lexLeB : LexBound → String → Bool
  | .negInf, _ => false
  | .posInf, _ => true
  | .incl x, m => !(decide (x < m))
  | .excl x, m => decide (m < x)

/-- ZRANGEBYLEX: members within the lexicographic bounds. -/
def zrangebylexS (s : Store) (k : String) (lo hi : LexBound) : List String :=
  ((zmembersS s k).map Prod.fst).filter (fun m => lexGeB lo m && lexLeB hi m)

/-- Trailing identifier of a value||id zset member, as extracted by
member.split("||")[1].  A member without the separator makes the [1]
access undefined, which the template then renders as the key
prefix:undefined — modelled by the literal "undefined". -/
def zsetMemberTrailingId (m : String) : String :=
  (m.splitOn "||").getD 1 "undefined"

/-- findWhereIndexed (src/src/orm/index.ts, current version): resolve an
identifier list from the declared index of the field.  Equality indexes
answer eq / in / ne / nin through SMEMBERS / SUNION / SDIFF against the
Membership Set; ordered indexes answer the range operators through
ZRANGEBYLEX on value||id members for string operands and ZRANGEBYSCORE
otherwise.  Operator/kind combinations without a case leave the
identifier list empty. -/
def findWhereIndexed (ctx : CtxM) (s : Store) (field : String)
    (op : Operator) (value : QueryVal) : List String :=
  match alookup ctx.indexedFields field with
  | some .set =>
      match op with
      | .eq => smembersS s (setIndexKeyQ ctx field value)
      | .inOp =>
          match value with
          | .array vs => sunionS s (vs.map (fun v => setIndexKey ctx field v))
          | .single _ => []
      | .ne => sdiffS s (allKey ctx) [setIndexKeyQ ctx field value]
      | .nin =>
          match value with
          | .array vs =>
              if vs.length > 0 then sdiffS s (allKey ctx) (vs.map (fun v => setIndexKey ctx field v))
              else smembersS s (allKey ctx)
          | .single _ => smembersS s (allKey ctx)
      | _ => []
  | some .zset =>
      match value with
      | .single (.str sv) =>
          let raw :=
            match op with
            | .lt => zrangebylexS s (zsetIndexKey ctx field) .negInf (.excl sv)
            | .lte => zrangebylexS s (zsetIndexKey ctx field) .negInf (.incl sv)
            | .gt => zrangebylexS s (zsetIndexKey ctx field) (.excl sv) .posInf
            | .gte => zrangebylexS s (zsetIndexKey ctx field) (.incl sv) .posInf
            | _ => []
          raw.map zsetMemberTrailingId
      | _ =>
          match jsNumberOfQuery value with
          | some val =>
              match op with
              | .lt => zrangebyscoreS s (zsetIndexKey ctx field) .negInf (.excl val)
              | .lte => zrangebyscoreS s (zsetIndexKey ctx field) .negInf (.incl val)
              | .gt => zrangebyscoreS s (zsetIndexKey ctx field) (.excl val) .posInf
              | .gte => zrangebyscoreS s (zsetIndexKey ctx field) (.incl val) .posInf
              | _ => []
          | none => []
  | none => []

/-- Case-insensitive substring containment, the in-memory meaning of the
like operator: fieldValue.toLowerCase().includes(value.toLowerCase()). -/
def likeContains (hay pat : String) : Bool :=
  decide ((pat.toLower).data <:+: (hay.toLower).data)

/-- SameValueZero membership test of Array.prototype.includes applied to
a freshly parsed field value, which for the value types at hand agrees
with strict equality. -/
def jsIncludes (vs : List Value) (w : Value) : Bool :=
  vs.any (fun v => jsStrictEq w v)

/-- The in-memory predicate of the findWhere fallback scan
(src/src/orm/methods/find.ts, the switch inside the filter), evaluated
against the possibly absent decoded field value.  The ordering operators
require both sides to be two strings, two numbers, or two Dates, and
Dates compare by their timestamps; like requires two strings; in / nin
require an array operand. -/
def matchesPredicate (e : Entity) (field : String) (op : Operator)
    (value : QueryVal) : Bool :=
  let fieldValue := entityField e field
  match op with
  | .eq =>
      match fieldValue, value with
      | some w, .single v => jsStrictEq w v
      | _, _ => false
  | .ne =>
      match fieldValue, value with
      | some w, .single v => !(jsStrictEq w v)
      | _, _ => true
  | .lt =>
      match fieldValue, value with
      | some (.str a), .single (.str b) => decide (a < b)
      | some (.num a), .single (.num b) => decide (a < b)
      | some (.date a), .single (.date b) => decide (a < b)
      | _, _ => false
  | .lte =>
      match fieldValue, value with
      | some (.str a), .single (.str b) => decide (a ≤ b)
      | some (.num a), .single (.num b) => decide (a ≤ b)
      | some (.date a), .single (.date b) => decide (a ≤ b)
      | _, _ => false
  | .gt =>
      match fieldValue, value with
      | some (.str a), .single (.str b) => decide (b < a)
      | some (.num a), .single (.num b) => decide (b < a)
      | some (.date a), .single (.date b) => decide (b < a)
      | _, _ => false
  | .gte =>
      match fieldValue, value with
      | some (.str a), .single (.str b) => decide (b ≤ a)
      | some (.num a), .single (.num b) => decide (b ≤ a)
      | some (.date a), .single (.date b) => decide (b ≤ a)
      | _, _ => false
  | .like =>
      match fieldValue, value with
      | some (.str w), .single (.str pat) => likeContains w pat
      | _, _ => false
  | .inOp =>
      match value with
      | .array vs => fieldValue.elim false (fun w => jsIncludes vs w)
      | .single _ => false
  | .nin =>
      match value with
      | .array vs => !(fieldValue.elim false (fun w => jsIncludes vs w))
      | .single _ => false

/-- findWhere (src/src/orm/methods/find.ts): try the declared index when
its kind supports the operator; when the identifier list stayed empty and
either no index is declared for the field or the operator is like, fall
back to a full scan filtered in memory; otherwise bulk-read the resolved
identifiers and silently drop those whose primary record is gone. -/
def findWhereM (ctx : CtxM) (s : Store) (field : String) (op : Operator)
    (value : QueryVal) : List Entity :=
  let indexType := alookup ctx.indexedFields field
  let ids : List String :=
    match indexType with
    | some kind =>
        let supportedBySet := op == .eq || op == .ne || op == .inOp || op == .nin
        let supportedByZset := op == .lt || op == .lte || op == .gt || op == .gte
        if (kind == .set && supportedBySet) || (kind == .zset && supportedByZset) then
          findWhereIndexed ctx s field op value
        else []
    | none => []
  if ids.isEmpty && (indexType.isNone || op == .like) then
    (getAllM ctx s).filter (fun e => matchesPredicate e field op value)
  else
    ids.filterMap (fun i => alookup s.kvStrings (keyOf ctx i))

/-- Identifier set of a full scan of all primary records of the entity
type, filtered in memory by the same predicate — the reference result the
spec compares findWhere against. -/
def scanFilteredM (ctx : CtxM) (s : Store) (field : String) (op : Operator)
    (value : QueryVal) : List Entity :=
  (getAllM ctx s).filter (fun e => matchesPredicate e field op value)

end KvOrm

namespace KvOrm

/-! ### Association-list lemmas -/

theorem alookup_aupsert {α : Type} (l : List (String × α)) (k k' : String) (v : α) :
    alookup (aupsert l k v) k' = if k = k' then some v else alookup l k' := by
  induction l with
  | nil => simp [aupsert, alookup]
  | cons p t ih =>
      obtain ⟨pk, pv⟩ := p
      by_cases hk : pk = k
      · subst hk
        by_cases hk' : pk = k' <;> simp [aupsert, alookup, hk', ih]
      · by_cases hk' : pk = k'
        · subst hk'
          have h1 : aupsert ((pk, pv) :: t) k v = (pk, pv) :: aupsert t k v := by
            simp [aupsert, hk]
          rw [h1, show alookup ((pk, pv) :: aupsert t k v) pk = some pv by simp [alookup],
            if_neg (Ne.symm hk)]
          simp [alookup]
        · simp [aupsert, alookup, hk, hk', ih]

theorem alookup_aremove {α : Type} (l : List (String × α)) (k k' : String) :
    alookup (aremove l k) k' = if k = k' then none else alookup l k' := by
  induction l with
  | nil => simp [aremove, alookup]
  | cons p t ih =>
      obtain ⟨pk, pv⟩ := p
      have hrem : aremove ((pk, pv) :: t) k =
          if pk = k then aremove t k else (pk, pv) :: aremove t k := by
        by_cases hk : pk = k <;> simp [aremove, List.filter, hk]
      by_cases hk : pk = k
      · subst hk
        rw [hrem, if_pos rfl, ih]
        by_cases hk' : pk = k'
        · simp [hk']
        · simp [alookup, hk', if_neg hk']
      · rw [hrem, if_neg hk]
        by_cases hk' : pk = k'
        · subst hk'
          rw [if_neg (Ne.symm hk)]
          simp [alookup, ih, if_neg (Ne.symm hk)]
        · simp only [alookup, if_neg hk', ih]

theorem alookup_mem {α : Type} {l : List (String × α)} {k : String} {v : α}
    (h : alookup l k = some v) : (k, v) ∈ l := by
  induction l with
  | nil => simp [alookup] at h
  | cons p t ih =>
      obtain ⟨pk, pv⟩ := p
      by_cases hk : pk = k
      · subst hk
        simp [alookup] at h
        simp [h]
      · simp [alookup, hk] at h
        exact List.mem_cons_of_mem _ (ih h)

/-! ### String facts -/

theorem string_ext {s t : String} (h : s.data = t.data) : s = t := by
  cases s
  cases t
  exact congrArg String.mk h

theorem string_append_cancel_left {p a b : String} (h : p ++ a = p ++ b) : a = b := by
  apply string_ext
  have hd : p.data ++ a.data = p.data ++ b.data := by
    simpa [String.data_append] using congrArg String.data h
  exact List.append_cancel_left hd

theorem string_append_len (a b : String) : (a ++ b).data.length = a.data.length + b.data.length := by
  simp [String.data_append]

theorem keyOf_inj {ctx : CtxM} {a b : String} (h : keyOf ctx a = keyOf ctx b) : a = b :=
  string_append_cancel_left h

/-! ### Decimal serialization is injective -/

/-- Numeric value of a little-endian digit-character list. -/
def valLE : List Char → Nat
  | [] => 0
  | c :: t => digitValOf c + 10 * valLE t

theorem digitValOf_digitCharOf {d : Nat} (h : d < 10) :
    digitValOf (digitCharOf d) = d := by
  interval_cases d <;> rfl

theorem digitCharOf_isDigit {d : Nat} (h : d < 10) : (digitCharOf d).isDigit := by
  interval_cases d <;> decide

theorem valLE_natDecAux : ∀ fuel n, n ≤ fuel → valLE (natDecAux fuel n) = n := by
  intro fuel
  induction fuel with
  | zero =>
      intro n h
      have : n = 0 := Nat.le_zero.mp h
      simp [this, natDecAux, valLE]
  | succ f ih =>
      intro n h
      by_cases h0 : n = 0
      · simp [h0, natDecAux, valLE]
      · have hdiv : n / 10 < n := Nat.div_lt_self (Nat.pos_of_ne_zero h0) (by norm_num)
        have hle : n / 10 ≤ f := by omega
        simp only [natDecAux, h0, if_false, valLE]
        rw [ih _ hle, digitValOf_digitCharOf (Nat.mod_lt n (by norm_num))]
        omega

theorem mem_natDecAux_isDigit : ∀ fuel n c, c ∈ natDecAux fuel n → c.isDigit := by
  intro fuel
  induction fuel with
  | zero => intro n c hc; simp [natDecAux] at hc
  | succ f ih =>
      intro n c hc
      by_cases h0 : n = 0
      · simp [natDecAux, h0] at hc
      · simp only [natDecAux, h0, if_false, List.mem_cons] at hc
        rcases hc with hc | hc
        · subst hc
          exact digitCharOf_isDigit (Nat.mod_lt n (by norm_num))
        · exact ih _ _ hc

theorem natDec_ne_empty (n : Nat) : (natDec n).data ≠ [] := by
  by_cases h0 : n = 0
  · simp [natDec, h0]
  · simp only [natDec, h0, if_false]
    intro h
    have : natDecAux n n = [] := by simpa using congrArg List.reverse h
    have hv := valLE_natDecAux n n le_rfl
    rw [this] at hv
    exact h0 (by simpa [valLE] using hv.symm)

theorem mem_natDec_isDigit {n : Nat} {c : Char} (hc : c ∈ (natDec n).data) : c.isDigit := by
  by_cases h0 : n = 0
  · simp [natDec, h0] at hc
    subst hc
    decide
  · simp only [natDec, h0, if_false] at hc
    exact mem_natDecAux_isDigit n n c (List.mem_reverse.mp hc)

theorem natDec_inj {m n : Nat} (h : natDec m = natDec n) : m = n := by
  have hd : (natDec m).data = (natDec n).data := congrArg String.data h
  by_cases hm : m = 0 <;> by_cases hn : n = 0
  · omega
  · exfalso
    simp only [natDec, hm, hn, if_true, if_false] at hd
    have : natDecAux n n = ['0'] := by
      have := congrArg List.reverse hd
      simpa using this.symm
    have hv := valLE_natDecAux n n le_rfl
    rw [this] at hv
    exact hn (by simpa [valLE, digitValOf] using hv.symm)
  · exfalso
    simp only [natDec, hm, hn, if_true, if_false] at hd
    have : natDecAux m m = ['0'] := by
      have := congrArg List.reverse hd
      simpa using this
    have hv := valLE_natDecAux m m le_rfl
    rw [this] at hv
    exact hm (by simpa [valLE, digitValOf] using hv.symm)
  · simp only [natDec, hm, hn, if_false] at hd
    have hrev : natDecAux m m = natDecAux n n := by
      have := congrArg List.reverse hd
      simpa using this
    have h1 := valLE_natDecAux m m le_rfl
    have h2 := valLE_natDecAux n n le_rfl
    rw [hrev] at h1
    omega

theorem intDec_inj {a b : Int} (h : intDec a = intDec b) : a = b := by
  unfold intDec at h
  by_cases ha : a < 0 <;> by_cases hb : b < 0
  · simp only [ha, hb, if_true] at h
    have := natDec_inj (string_append_cancel_left h)
    omega
  · exfalso
    simp only [ha, hb, if_true, if_false] at h
    have hd := congrArg String.data h
    rw [String.data_append] at hd
    have hdash : '-' ∈ (natDec b.natAbs).data := by
      rw [← hd]
      simp [show ("-" : String).data = ['-'] by decide]
    exact absurd (mem_natDec_isDigit hdash) (by decide)
  · exfalso
    simp only [ha, hb, if_true, if_false] at h
    have hd := congrArg String.data h.symm
    rw [String.data_append] at hd
    have hdash : '-' ∈ (natDec a.natAbs).data := by
      rw [← hd]
      simp [show ("-" : String).data = ['-'] by decide]
    exact absurd (mem_natDec_isDigit hdash) (by decide)
  · simp only [ha, hb, if_false] at h
    have := natDec_inj h
    omega

theorem normalizeIndexValue_inj {v w : Value} (htag : typeTag v = typeTag w)
    (hnd : typeTag v ≠ .date)
    (h : normalizeIndexValue v = normalizeIndexValue w) : v = w := by
  cases v with
  | str a =>
      cases w with
      | str b => simpa [normalizeIndexValue] using h
      | num b => simp [typeTag] at htag
      | bool b => simp [typeTag] at htag
      | date b => simp [typeTag] at htag
  | num a =>
      cases w with
      | str b => simp [typeTag] at htag
      | num b =>
          simp only [normalizeIndexValue] at h
          rw [intDec_inj h]
      | bool b => simp [typeTag] at htag
      | date b => simp [typeTag] at htag
  | bool a =>
      cases w with
      | str b => simp [typeTag] at htag
      | num b => simp [typeTag] at htag
      | bool b =>
          cases a <;> cases b <;> simp_all [normalizeIndexValue]
      | date b => simp [typeTag] at htag
  | date a => exact absurd rfl hnd

theorem jsStrictEq_iff {w v : Value} :
    jsStrictEq w v = true ↔ (w = v ∧ typeTag v ≠ .date) := by
  cases w <;> cases v <;> simp [jsStrictEq, typeTag]

end KvOrm

namespace KvOrm

/-! ### Effect of batch execution on the store tables -/

theorem execBatch_cons (s : Store) (op : RedisOp) (rest : List RedisOp) :
    (execBatch s (op :: rest)).1 = (execBatch (applyOp s op).1 rest).1 := rfl

theorem smembersS_applyOp_sadd (s : Store) (k m k' : String) :
    smembersS (applyOp s (.sadd k m)).1 k' =
      if k = k' then (if (smembersS s k).contains m then smembersS s k else smembersS s k ++ [m])
      else smembersS s k' := by
  by_cases h : k = k' <;> simp [applyOp, smembersS, alookup_aupsert, h]

theorem smembersS_applyOp_srem (s : Store) (k m k' : String) :
    smembersS (applyOp s (.srem k m)).1 k' =
      if k = k' then (smembersS s k).filter (fun x => x ≠ m) else smembersS s k' := by
  by_cases h : k = k' <;> simp [applyOp, smembersS, alookup_aupsert, h]

theorem smembersS_applyOp_other (s : Store) (op : RedisOp) (k' : String)
    (hop : match op with | .sadd _ _ => False | .srem _ _ => False | _ => True) :
    smembersS (applyOp s op).1 k' = smembersS s k' := by
  cases op <;> simp_all [applyOp, smembersS]

theorem zmembersS_applyOp_zadd (s : Store) (k : String) (sc : Int) (m k' : String) :
    zmembersS (applyOp s (.zadd k sc m)).1 k' =
      if k = k' then ((zmembersS s k).filter (fun p => p.1 ≠ m)) ++ [(m, sc)]
      else zmembersS s k' := by
  by_cases h : k = k' <;> simp [applyOp, zmembersS, alookup_aupsert, h]

theorem zmembersS_applyOp_zrem (s : Store) (k m k' : String) :
    zmembersS (applyOp s (.zrem k m)).1 k' =
      if k = k' then (zmembersS s k).filter (fun p => p.1 ≠ m)
      else zmembersS s k' := by
  by_cases h : k = k' <;> simp [applyOp, zmembersS, alookup_aupsert, h]

theorem zmembersS_applyOp_other (s : Store) (op : RedisOp) (k' : String)
    (hop : match op with | .zadd _ _ _ => False | .zrem _ _ => False | _ => True) :
    zmembersS (applyOp s op).1 k' = zmembersS s k' := by
  cases op <;> simp_all [applyOp, zmembersS]

/-- A batch containing no SADD command. -/
def saddFree (ops : List RedisOp) : Prop :=
  ∀ op ∈ ops, match op with | RedisOp.sadd _ _ => False | _ => True

/-- A batch containing no ZADD command. -/
def zaddFree (ops : List RedisOp) : Prop :=
  ∀ op ∈ ops, match op with | RedisOp.zadd _ _ _ => False | _ => True

theorem mem_smembers_of_execBatch : ∀ (ops : List RedisOp), saddFree ops →
    ∀ (s : Store) (k i : String), i ∈ smembersS (execBatch s ops).1 k → i ∈ smembersS s k := by
  intro ops
  induction ops with
  | nil => intro _ s k i hi; exact hi
  | cons op rest ih =>
      intro hfree s k i hi
      rw [execBatch_cons] at hi
      have h1 : i ∈ smembersS (applyOp s op).1 k :=
        ih (fun o ho => hfree o (List.mem_cons_of_mem _ ho)) _ _ _ hi
      cases op with
      | sadd k0 m => exact absurd (hfree _ (List.mem_cons_self _ _)) (by simp)
      | srem k0 m =>
          rw [smembersS_applyOp_srem] at h1
          by_cases hk : k0 = k
          · subst hk
            rw [if_pos rfl] at h1
            exact List.mem_of_mem_filter h1
          · rwa [if_neg hk] at h1
      | set k0 e => rwa [smembersS_applyOp_other s _ k (by simp)] at h1
      | del k0 => rwa [smembersS_applyOp_other s _ k (by simp)] at h1
      | zadd k0 sc m => rwa [smembersS_applyOp_other s _ k (by simp)] at h1
      | zrem k0 m => rwa [smembersS_applyOp_other s _ k (by simp)] at h1

theorem not_mem_smembers_preserved : ∀ (ops : List RedisOp), saddFree ops →
    ∀ (s : Store) (k i : String), i ∉ smembersS s k → i ∉ smembersS (execBatch s ops).1 k := by
  intro ops hfree s k i hni hmem
  exact hni (mem_smembers_of_execBatch ops hfree s k i hmem)

theorem not_mem_smembers_of_srem : ∀ (ops : List RedisOp), saddFree ops →
    ∀ (k i : String), RedisOp.srem k i ∈ ops →
    ∀ (s : Store), i ∉ smembersS (execBatch s ops).1 k := by
  intro ops
  induction ops with
  | nil => intro _ k i hmem; simp at hmem
  | cons op rest ih =>
      intro hfree k i hmem s
      rw [execBatch_cons]
      rcases List.mem_cons.mp hmem with heq | hmem'
      · subst heq
        apply not_mem_smembers_preserved rest (fun o ho => hfree o (List.mem_cons_of_mem _ ho))
        rw [smembersS_applyOp_srem, if_pos rfl]
        simp
      · exact ih (fun o ho => hfree o (List.mem_cons_of_mem _ ho)) k i hmem' _

theorem mem_zmembers_of_execBatch : ∀ (ops : List RedisOp), zaddFree ops →
    ∀ (s : Store) (k : String) (p : String × Int),
      p ∈ zmembersS (execBatch s ops).1 k → p ∈ zmembersS s k := by
  intro ops
  induction ops with
  | nil => intro _ s k p hp; exact hp
  | cons op rest ih =>
      intro hfree s k p hp
      rw [execBatch_cons] at hp
      have h1 : p ∈ zmembersS (applyOp s op).1 k :=
        ih (fun o ho => hfree o (List.mem_cons_of_mem _ ho)) _ _ _ hp
      cases op with
      | zadd k0 sc m => exact absurd (hfree _ (List.mem_cons_self _ _)) (by simp)
      | zrem k0 m =>
          rw [zmembersS_applyOp_zrem] at h1
          by_cases hk : k0 = k
          · subst hk
            rw [if_pos rfl] at h1
            exact List.mem_of_mem_filter h1
          · rwa [if_neg hk] at h1
      | set k0 e => rwa [zmembersS_applyOp_other s _ k (by simp)] at h1
      | del k0 => rwa [zmembersS_applyOp_other s _ k (by simp)] at h1
      | sadd k0 m => rwa [zmembersS_applyOp_other s _ k (by simp)] at h1
      | srem k0 m => rwa [zmembersS_applyOp_other s _ k (by simp)] at h1

theorem not_mem_zmembers_preserved : ∀ (ops : List RedisOp), zaddFree ops →
    ∀ (s : Store) (k m : String), (∀ sc, (m, sc) ∉ zmembersS s k) →
    ∀ sc, (m, sc) ∉ zmembersS (execBatch s ops).1 k := by
  intro ops hfree s k m hni sc hmem
  exact hni sc (mem_zmembers_of_execBatch ops hfree s k (m, sc) hmem)

theorem not_mem_zmembers_of_zrem : ∀ (ops : List RedisOp), zaddFree ops →
    ∀ (k m : String), RedisOp.zrem k m ∈ ops →
    ∀ (s : Store) (sc : Int), (m, sc) ∉ zmembersS (execBatch s ops).1 k := by
  intro ops
  induction ops with
  | nil => intro _ k m hmem; simp at hmem
  | cons op rest ih =>
      intro hfree k m hmem s sc
      rw [execBatch_cons]
      rcases List.mem_cons.mp hmem with heq | hmem'
      · subst heq
        apply not_mem_zmembers_preserved rest (fun o ho => hfree o (List.mem_cons_of_mem _ ho))
        intro sc'
        rw [zmembersS_applyOp_zrem, if_pos rfl]
        simp
      · exact ih (fun o ho => hfree o (List.mem_cons_of_mem _ ho)) k m hmem' _ sc

end KvOrm

namespace KvOrm

/-! ### Well-formed stores and index consistency -/

/-- Well-formedness of the keyspace relative to one entity type: every
primary record is stored under the key derived from its own id, and that
id satisfies the identifier format (normalizeEntity guarantees both for
every record the ORM writes). -/
structure StoreWF (ctx : CtxM) (s : Store) : Prop where
  keysRecords : ∀ k e, alookup s.kvStrings k = some e →
    k = keyOf ctx e.id ∧ isValidUuid e.id = true

/-- Index/record consistency at rest (spec section 3): the Membership Set
holds exactly the identifiers of the stored records; every equality-index
entry of a declared set-indexed field holds exactly the identifiers of
records whose field value serializes like the entry's value; the ordered
index of a declared zset-indexed field holds exactly the ordered-index
representations of the stored records. -/
structure IndexesConsistent (ctx : CtxM) (s : Store) : Prop where
  membership : ∀ i, i ∈ smembersS s (allKey ctx) ↔
    ∃ e, alookup s.kvStrings (keyOf ctx i) = some e ∧ e.id = i
  setIdx : ∀ f, (f, IndexKind.set) ∈ ctx.indexedFields →
    ∀ v i, i ∈ smembersS s (setIndexKey ctx f v) ↔
      ∃ e, alookup s.kvStrings (keyOf ctx i) = some e ∧ e.id = i ∧
        ∃ w, entityField e f = some w ∧ normalizeIndexValue w = normalizeIndexValue v
  zsetIdx : ∀ f, (f, IndexKind.zset) ∈ ctx.indexedFields →
    ∀ m sc, (m, sc) ∈ zmembersS s (zsetIndexKey ctx f) ↔
      ∃ i e, alookup s.kvStrings (keyOf ctx i) = some e ∧ e.id = i ∧
        zencode e f = some (m, sc)

theorem mem_getAllM {ctx : CtxM} {s : Store} (hwf : StoreWF ctx s) (e : Entity) :
    e ∈ getAllM ctx s ↔ alookup s.kvStrings (keyOf ctx e.id) = some e := by
  constructor
  · intro he
    obtain ⟨k, _, hlook⟩ := List.mem_filterMap.mp he
    have hk := (hwf.keysRecords k e hlook).1
    rwa [← hk]
  · intro hlook
    apply List.mem_filterMap.mpr
    refine ⟨keyOf ctx e.id, ?_, hlook⟩
    unfold scanKeysM
    apply List.mem_filter.mpr
    constructor
    · apply List.mem_append.mpr
      left
      apply List.mem_append.mpr
      left
      exact List.mem_map.mpr ⟨(keyOf ctx e.id, e), alookup_mem hlook, rfl⟩
    · have hpre : (ctx.pfx ++ ":").data <+: (keyOf ctx e.id).data := by
        unfold keyOf
        rw [show ctx.pfx ++ ":" ++ e.id = (ctx.pfx ++ ":") ++ e.id from rfl, String.data_append]
        exact List.prefix_append _ _
      simpa using List.isPrefixOf_iff_prefix.mpr hpre

theorem mem_resolvedIds {ctx : CtxM} {s : Store} (hwf : StoreWF ctx s)
    (ids : List String) (i : String) :
    i ∈ (ids.filterMap (fun j => alookup s.kvStrings (keyOf ctx j))).map Entity.id ↔
      i ∈ ids ∧ ∃ e, alookup s.kvStrings (keyOf ctx i) = some e ∧ e.id = i := by
  constructor
  · intro hi
    obtain ⟨e, he, hid⟩ := List.mem_map.mp hi
    obtain ⟨j, hj, hlook⟩ := List.mem_filterMap.mp he
    have hk := (hwf.keysRecords _ e hlook).1
    have hji : j = e.id := keyOf_inj hk
    subst hid
    rw [hji] at hj hlook
    exact ⟨hj, e, hlook, rfl⟩
  · rintro ⟨hin, e, hlook, hid⟩
    apply List.mem_map.mpr
    refine ⟨e, List.mem_filterMap.mpr ⟨i, hin, hlook⟩, hid⟩

theorem mem_scanIds {ctx : CtxM} {s : Store} (hwf : StoreWF ctx s)
    (field : String) (op : Operator) (value : QueryVal) (i : String) :
    i ∈ (scanFilteredM ctx s field op value).map Entity.id ↔
      ∃ e, alookup s.kvStrings (keyOf ctx i) = some e ∧ e.id = i ∧
        matchesPredicate e field op value = true := by
  unfold scanFilteredM
  constructor
  · intro hi
    obtain ⟨e, he, hid⟩ := List.mem_map.mp hi
    obtain ⟨hall, hmatch⟩ := List.mem_filter.mp he
    have hlook := (mem_getAllM hwf e).mp hall
    subst hid
    exact ⟨e, hlook, rfl, hmatch⟩
  · rintro ⟨e, hlook, hid, hmatch⟩
    apply List.mem_map.mpr
    refine ⟨e, List.mem_filter.mpr ⟨(mem_getAllM hwf e).mpr ?_, hmatch⟩, hid⟩
    rwa [hid]

/-! ### Shape of the delete batch -/

theorem deleteIndexesOps_shape {ctx : CtxM} {e : Entity} {op : RedisOp}
    (hop : op ∈ deleteIndexesOps ctx e) :
    (∃ k m, op = RedisOp.srem k m) ∨ (∃ k m, op = RedisOp.zrem k m) := by
  unfold deleteIndexesOps at hop
  rcases List.mem_cons.mp hop with h | h
  · exact Or.inl ⟨_, _, h⟩
  · obtain ⟨l, hl, hop'⟩ := List.mem_flatten.mp h
    obtain ⟨fk, _, rfl⟩ := List.mem_map.mp hl
    obtain ⟨f, kind⟩ := fk
    cases kind with
    | set =>
        cases hv : entityField e f with
        | none => simp [deleteIndexesFieldOps, hv] at hop'
        | some v =>
            simp only [deleteIndexesFieldOps, hv] at hop'
            simp at hop'
            exact Or.inl ⟨_, _, hop'⟩
    | zset =>
        cases hv : entityField e f with
        | none =>
            simp only [deleteIndexesFieldOps, hv] at hop'
            simp at hop'
            exact Or.inr ⟨_, _, hop'⟩
        | some v =>
            cases v <;> simp only [deleteIndexesFieldOps, hv] at hop' <;> simp at hop' <;>
              exact Or.inr ⟨_, _, hop'⟩

theorem deleteBatch_saddFree (ctx : CtxM) (e : Entity) (k : String) :
    saddFree (RedisOp.del k :: deleteIndexesOps ctx e) := by
  intro op hop
  rcases List.mem_cons.mp hop with h | h
  · subst h; trivial
  · rcases deleteIndexesOps_shape h with ⟨k', m', rfl⟩ | ⟨k', m', rfl⟩ <;> trivial

theorem deleteBatch_zaddFree (ctx : CtxM) (e : Entity) (k : String) :
    zaddFree (RedisOp.del k :: deleteIndexesOps ctx e) := by
  intro op hop
  rcases List.mem_cons.mp hop with h | h
  · subst h; trivial
  · rcases deleteIndexesOps_shape h with ⟨k', m', rfl⟩ | ⟨k', m', rfl⟩ <;> trivial

theorem srem_all_mem_deleteIndexesOps (ctx : CtxM) (e : Entity) :
    RedisOp.srem (allKey ctx) e.id ∈ deleteIndexesOps ctx e := by
  unfold deleteIndexesOps
  exact List.mem_cons_self _ _

theorem srem_mem_deleteIndexesOps {ctx : CtxM} {e : Entity} {f : String} {v : Value}
    (hf : (f, IndexKind.set) ∈ ctx.indexedFields)
    (hv : entityField e f = some v) :
    RedisOp.srem (setIndexKey ctx f v) e.id ∈ deleteIndexesOps ctx e := by
  unfold deleteIndexesOps
  apply List.mem_cons_of_mem
  apply List.mem_flatten.mpr
  refine ⟨[RedisOp.srem (setIndexKey ctx f v) e.id], ?_, List.mem_singleton.mpr rfl⟩
  apply List.mem_map.mpr
  refine ⟨(f, IndexKind.set), hf, ?_⟩
  simp [deleteIndexesFieldOps, hv]

theorem zrem_mem_deleteIndexesOps {ctx : CtxM} {e : Entity} {f : String}
    (hf : (f, IndexKind.zset) ∈ ctx.indexedFields) :
    RedisOp.zrem (zsetIndexKey ctx f)
      (match entityField e f with
       | some (.str sv) => sv ++ "||" ++ e.id
       | _ => e.id) ∈ deleteIndexesOps ctx e := by
  unfold deleteIndexesOps
  apply List.mem_cons_of_mem
  apply List.mem_flatten.mpr
  refine ⟨_, List.mem_map.mpr ⟨(f, IndexKind.zset), hf, rfl⟩, ?_⟩
  cases hv : entityField e f with
  | none => simp [deleteIndexesFieldOps, hv]
  | some v => cases v <;> simp [deleteIndexesFieldOps, hv]

end KvOrm

namespace KvOrm

/-! ### Ordered-index members reference identifiers unambiguously -/

theorem isValidUuid_no_pipe {s : String} (h : isValidUuid s = true) : '|' ∉ s.data := by
  unfold isValidUuid at h
  rcases Bool.or_eq_true_iff.mp h with h1 | h2
  · rcases Bool.or_eq_true_iff.mp h1 with ha | hb
    · have : s = "00000000-0000-0000-0000-000000000000" := by simpa using ha
      subst this
      decide
    · have : s = "ffffffff-ffff-ffff-ffff-ffffffffffff" := by simpa using hb
      subst this
      decide
  · have hall : s.data.all uuidCharOk = true := by
      simp only [Bool.and_eq_true] at h2
      exact h2.1.1.1.1.1.1.1.2
    intro hmem
    have := List.all_eq_true.mp hall _ hmem
    simp [uuidCharOk, isHexChar] at this

theorem isValidUuid_ne_empty {s : String} (h : isValidUuid s = true) : s ≠ "" := by
  unfold isValidUuid at h
  rcases Bool.or_eq_true_iff.mp h with h1 | h2
  · rcases Bool.or_eq_true_iff.mp h1 with ha | hb
    · have : s = "00000000-0000-0000-0000-000000000000" := by simpa using ha
      subst this
      decide
    · have : s = "ffffffff-ffff-ffff-ffff-ffffffffffff" := by simpa using hb
      subst this
      decide
  · simp only [Bool.and_eq_true] at h2
    have hlen : s.data.length = 36 := by simpa using h2.1.1.1.1.1.1.1.1
    intro he
    subst he
    simp at hlen

theorem data_pipe_pipe (i : String) : ("||" ++ i).data = '|' :: '|' :: i.data := by
  rw [String.data_append]
  rfl

theorem data_member_encode (w i' : String) :
    (w ++ "||" ++ i').data = w.data ++ ('|' :: '|' :: i'.data) := by
  rw [show w ++ "||" ++ i' = (w ++ "||") ++ i' from rfl, String.data_append, String.data_append]
  simp [show ("||" : String).data = ['|', '|'] from by decide]

theorem suffix_total {l₁ l₂ L : List Char} (h1 : l₁ <:+ L) (h2 : l₂ <:+ L) :
    l₁ <:+ l₂ ∨ l₂ <:+ l₁ := by
  have p1 := List.reverse_prefix.mpr h1
  have p2 := List.reverse_prefix.mpr h2
  rcases List.prefix_or_prefix_of_prefix p1 p2 with h | h
  · exact Or.inl (List.reverse_prefix.mp h)
  · exact Or.inr (List.reverse_prefix.mp h)

theorem pipe_suffix_aux {a b : List Char}
    (h : ('|' :: '|' :: a) <:+ ('|' :: '|' :: b)) (hb : '|' ∉ b) : a = b := by
  obtain ⟨t, ht⟩ := h
  cases t with
  | nil => simpa using ht
  | cons c t1 =>
      cases t1 with
      | nil =>
          simp only [List.cons_append, List.nil_append, List.cons.injEq] at ht
          exact absurd (ht.2.2 ▸ List.mem_cons_self '|' a) hb
      | cons d t2 =>
          simp only [List.cons_append, List.cons.injEq] at ht
          have hbd : t2 ++ ('|' :: '|' :: a) = b := ht.2.2
          have : ('|' : Char) ∈ t2 ++ ('|' :: '|' :: a) :=
            List.mem_append.mpr (Or.inr (List.mem_cons_self _ _))
          exact absurd (hbd ▸ this) hb

theorem encoded_member_not_for_other {w i' i : String}
    (hp' : '|' ∉ i'.data) (hp : '|' ∉ i.data) (hne : i' ≠ i) :
    (w ++ "||" ++ i') ≠ i ∧ ¬ (("||" ++ i).data <:+ (w ++ "||" ++ i').data) := by
  constructor
  · intro heq
    apply hp
    rw [← heq, data_member_encode]
    exact List.mem_append.mpr (Or.inr (List.mem_cons_self _ _))
  · intro hsuf
    rw [data_member_encode, data_pipe_pipe] at hsuf
    have hsuf2 : ('|' :: '|' :: i'.data) <:+ (w.data ++ ('|' :: '|' :: i'.data)) :=
      List.suffix_append _ _
    rcases suffix_total hsuf hsuf2 with h | h
    · exact hne (string_ext (pipe_suffix_aux h hp')).symm
    · exact hne (string_ext (pipe_suffix_aux h hp))

theorem plain_member_not_for_other {i' i : String} (hp' : '|' ∉ i'.data) (hne : i' ≠ i) :
    i' ≠ i ∧ ¬ (("||" ++ i).data <:+ i'.data) := by
  refine ⟨hne, fun hsuf => ?_⟩
  apply hp'
  rw [data_pipe_pipe] at hsuf
  exact hsuf.subset (List.mem_cons_self _ _)

end KvOrm


namespace KvOrm

theorem zrem_str_mem_deleteIndexesOps {ctx : CtxM} {e : Entity} {f sv : String}
    (hf : (f, IndexKind.zset) ∈ ctx.indexedFields)
    (hv : entityField e f = some (.str sv)) :
    RedisOp.zrem (zsetIndexKey ctx f) (sv ++ "||" ++ e.id) ∈ deleteIndexesOps ctx e := by
  unfold deleteIndexesOps
  apply List.mem_cons_of_mem
  apply List.mem_flatten.mpr
  refine ⟨_, List.mem_map.mpr ⟨(f, IndexKind.zset), hf, rfl⟩, ?_⟩
  simp [deleteIndexesFieldOps, hv]

theorem zrem_plain_mem_deleteIndexesOps {ctx : CtxM} {e : Entity} {f : String}
    (hf : (f, IndexKind.zset) ∈ ctx.indexedFields)
    (hv : ∀ sv, entityField e f ≠ some (.str sv)) :
    RedisOp.zrem (zsetIndexKey ctx f) e.id ∈ deleteIndexesOps ctx e := by
  unfold deleteIndexesOps
  apply List.mem_cons_of_mem
  apply List.mem_flatten.mpr
  refine ⟨_, List.mem_map.mpr ⟨(f, IndexKind.zset), hf, rfl⟩, ?_⟩
  cases hval : entityField e f with
  | none => simp [deleteIndexesFieldOps, hval]
  | some v => cases v with
    | str sv => exact absurd hval (hv sv)
    | num n => simp [deleteIndexesFieldOps, hval]
    | bool bv => simp [deleteIndexesFieldOps, hval]
    | date t => simp [deleteIndexesFieldOps, hval]

/-- C8: after delete(id) succeeds on a consistent store, no equality-index
entry of any declared set-indexed field contains id, every remaining
member of every declared ordered index is neither id itself nor a
value||id encoding ending in id, and the Membership Set no longer
contains id. -/
theorem claim_C8_delete_completeness
    (ctx : CtxM) (s : Store) (id : String) (s' : Store) (b : List RedisOp)
    (hwf : StoreWF ctx s) (hcons : IndexesConsistent ctx s)
    (hdel : deleteM ctx s id = (true, s', some b)) :
    (∀ f, (f, IndexKind.set) ∈ ctx.indexedFields →
        ∀ v, id ∉ smembersS s' (setIndexKey ctx f v)) ∧
    (∀ f, (f, IndexKind.zset) ∈ ctx.indexedFields →
        ∀ m sc, (m, sc) ∈ zmembersS s' (zsetIndexKey ctx f) →
          m ≠ id ∧ ¬ (("||" ++ id).data <:+ m.data)) ∧
    id ∉ smembersS s' (allKey ctx) := by
  cases hM : maybeGetM ctx s id with
  | none => simp [deleteM, hM] at hdel
  | some e =>
      simp only [deleteM, hM] at hdel
      rw [Prod.mk.injEq, Prod.mk.injEq] at hdel
      obtain ⟨-, hs', hb⟩ := hdel
      have hb' : b = RedisOp.del (keyOf ctx id) :: deleteIndexesOps ctx e :=
        (Option.some.inj hb).symm
      subst hb'
      subst hs'
      have hlook : alookup s.kvStrings (keyOf ctx id) = some e := hM
      obtain ⟨hkey, huuid⟩ := hwf.keysRecords _ _ hlook
      have heid : e.id = id := (keyOf_inj hkey).symm
      have hsf := deleteBatch_saddFree ctx e (keyOf ctx id)
      have hzf := deleteBatch_zaddFree ctx e (keyOf ctx id)
      have hidp : '|' ∉ id.data := heid ▸ isValidUuid_no_pipe huuid
      refine ⟨?_, ?_, ?_⟩
      · intro f hf v hmem
        have hmem0 : id ∈ smembersS s (setIndexKey ctx f v) :=
          mem_smembers_of_execBatch _ hsf s (setIndexKey ctx f v) id hmem
        obtain ⟨e2, hlook2, hid2, w, hw, hser⟩ := (hcons.setIdx f hf v id).mp hmem0
        have he2 : e = e2 := Option.some.inj (hlook.symm.trans hlook2)
        subst he2
        have hkeyeq : setIndexKey ctx f w = setIndexKey ctx f v := by
          unfold setIndexKey
          rw [hser]
        have hsrem : RedisOp.srem (setIndexKey ctx f v) id ∈
            RedisOp.del (keyOf ctx id) :: deleteIndexesOps ctx e := by
          apply List.mem_cons_of_mem
          have := srem_mem_deleteIndexesOps hf hw
          rwa [hkeyeq, heid] at this
        exact not_mem_smembers_of_srem _ hsf _ _ hsrem s hmem
      · intro f hf m sc hmem
        have hmem0 : (m, sc) ∈ zmembersS s (zsetIndexKey ctx f) :=
          mem_zmembers_of_execBatch _ hzf s (zsetIndexKey ctx f) (m, sc) hmem
        obtain ⟨i', e', hlook', hid', henc⟩ := (hcons.zsetIdx f hf m sc).mp hmem0
        by_cases hii : i' = id
        · rw [hii] at hlook'
          have he' : e = e' := Option.some.inj (hlook.symm.trans hlook')
          subst he'
          exfalso
          cases hv : entityField e f with
          | none => simp [zencode, hv] at henc
          | some v =>
              cases v with
              | str sv =>
                  simp only [zencode, hv] at henc
                  have hp := Option.some.inj henc
                  rw [Prod.mk.injEq] at hp
                  have hzrem : RedisOp.zrem (zsetIndexKey ctx f) m ∈
                      RedisOp.del (keyOf ctx id) :: deleteIndexesOps ctx e := by
                    apply List.mem_cons_of_mem
                    have := zrem_str_mem_deleteIndexesOps hf hv
                    rwa [hp.1] at this
                  exact not_mem_zmembers_of_zrem _ hzf _ _ hzrem s sc hmem
              | num n =>
                  simp only [zencode, hv, jsNumberOfValue, Option.map] at henc
                  have hp := Option.some.inj henc
                  rw [Prod.mk.injEq] at hp
                  have hzrem : RedisOp.zrem (zsetIndexKey ctx f) m ∈
                      RedisOp.del (keyOf ctx id) :: deleteIndexesOps ctx e := by
                    apply List.mem_cons_of_mem
                    have := zrem_plain_mem_deleteIndexesOps hf (fun sv h => by rw [hv] at h; simp at h)
                    rwa [hp.1] at this
                  exact not_mem_zmembers_of_zrem _ hzf _ _ hzrem s sc hmem
              | bool bv =>
                  simp only [zencode, hv, jsNumberOfValue, Option.map] at henc
                  have hp := Option.some.inj henc
                  rw [Prod.mk.injEq] at hp
                  have hzrem : RedisOp.zrem (zsetIndexKey ctx f) m ∈
                      RedisOp.del (keyOf ctx id) :: deleteIndexesOps ctx e := by
                    apply List.mem_cons_of_mem
                    have := zrem_plain_mem_deleteIndexesOps hf (fun sv h => by rw [hv] at h; simp at h)
                    rwa [hp.1] at this
                  exact not_mem_zmembers_of_zrem _ hzf _ _ hzrem s sc hmem
              | date t =>
                  simp only [zencode, hv, jsNumberOfValue, Option.map] at henc
                  have hp := Option.some.inj henc
                  rw [Prod.mk.injEq] at hp
                  have hzrem : RedisOp.zrem (zsetIndexKey ctx f) m ∈
                      RedisOp.del (keyOf ctx id) :: deleteIndexesOps ctx e := by
                    apply List.mem_cons_of_mem
                    have := zrem_plain_mem_deleteIndexesOps hf (fun sv h => by rw [hv] at h; simp at h)
                    rwa [hp.1] at this
                  exact not_mem_zmembers_of_zrem _ hzf _ _ hzrem s sc hmem
        · obtain ⟨-, huuid'⟩ := hwf.keysRecords _ _ hlook'
          have hip' : '|' ∉ i'.data := hid' ▸ isValidUuid_no_pipe huuid'
          cases hv : entityField e' f with
          | none => simp [zencode, hv] at henc
          | some v =>
              cases v with
              | str sv =>
                  simp only [zencode, hv] at henc
                  have hp := Option.some.inj henc
                  rw [Prod.mk.injEq] at hp
                  have hm : m = sv ++ "||" ++ i' := by rw [← hp.1, hid']
                  rw [hm]
                  exact encoded_member_not_for_other hip' hidp hii
              | num n =>
                  simp only [zencode, hv, jsNumberOfValue, Option.map] at henc
                  have hp := Option.some.inj henc
                  rw [Prod.mk.injEq] at hp
                  have hm : m = i' := by rw [← hp.1, hid']
                  rw [hm]
                  exact plain_member_not_for_other hip' hii
              | bool bv =>
                  simp only [zencode, hv, jsNumberOfValue, Option.map] at henc
                  have hp := Option.some.inj henc
                  rw [Prod.mk.injEq] at hp
                  have hm : m = i' := by rw [← hp.1, hid']
                  rw [hm]
                  exact plain_member_not_for_other hip' hii
              | date t =>
                  simp only [zencode, hv, jsNumberOfValue, Option.map] at henc
                  have hp := Option.some.inj henc
                  rw [Prod.mk.injEq] at hp
                  have hm : m = i' := by rw [← hp.1, hid']
                  rw [hm]
                  exact plain_member_not_for_other hip' hii
      · have hsrem : RedisOp.srem (allKey ctx) id ∈
            RedisOp.del (keyOf ctx id) :: deleteIndexesOps ctx e := by
          apply List.mem_cons_of_mem
          have := srem_all_mem_deleteIndexesOps ctx e
          rwa [heid] at this
        exact not_mem_smembers_of_srem _ hsf _ _ hsrem s

end KvOrm

namespace KvOrm

/-- C10: delete of an id with no stored primary record returns false and
performs no store mutation at all — no batch is even submitted. -/
theorem claim_C10_delete_missing_frame
    (ctx : CtxM) (s : Store) (id : String)
    (habs : alookup s.kvStrings (keyOf ctx id) = none) :
    deleteM ctx s id = (false, s, none) := by
  have hM : maybeGetM ctx s id = none := habs
  simp [deleteM, hM]

/-- C5: when the conditional EXEC of the read-modify-write cycle is
aborted because the watched primary key was modified by an intervening
write, update returns the aborted/not-found signal null while leaving the
store exactly as the intervening writes left it, updateOrFail fails with
the optimistic-locking conflict error, and neither function attempts the
cycle again (their result store is exactly the store at EXEC time: no
command of this call was applied and no further read or EXEC happens). -/
theorem claim_C5_conflict_no_retry
    (ctx : CtxM) (sRead sExec : Store) (now : Int) (genId id : String)
    (patch : InputRec) (existing u : Entity)
    (hread : maybeGetM ctx sRead id = some existing)
    (hnorm : normalizeEntityM ctx (mergeForUpdate existing patch) false now genId =
      .ok u) :
    updateM ctx sRead sExec true now genId id patch =
      (.ok none, sExec,
       some (.set (keyOf ctx u.id) u :: updateIndexesOps ctx u true (some existing))) ∧
    updateOrFailM ctx sRead sExec true now genId id patch =
      (.error (.conflict (keyOf ctx id)), sExec,
       some (.set (keyOf ctx u.id) u :: updateIndexesOps ctx u true (some existing))) := by
  constructor
  · simp [updateM, hread, hnorm]
  · simp [updateOrFailM, hread, hnorm]

/-- C6: a create whose input is rejected during normalization — a
supplied identifier not in the UUID format, or a record failing schema
validation — fails with a ValidationError and performs no store mutation
of any kind: the store is returned untouched and no batch is built.
Moreover a supplied non-empty malformed identifier always causes such a
rejection. -/
theorem claim_C6_validation_no_mutation
    (ctx : CtxM) (s : Store) (now : Int) (genId : String) (data : InputRec) :
    (∀ err, normalizeEntityM ctx data true now genId = .error err →
      createM ctx s now genId data = (.error err, s, none) ∧
        ∃ msg, err = .validation msg) ∧
    (∀ badId, data.id = some badId → badId ≠ "" → isValidUuid badId = false →
      normalizeEntityM ctx data true now genId =
        .error (.validation ("Invalid UUID provided for id: " ++ badId))) := by
  constructor
  · intro err hnorm
    constructor
    · simp [createM, hnorm]
    · unfold normalizeEntityM at hnorm
      by_cases hid : data.id.getD "" ≠ ""
      · rw [if_pos hid] at hnorm
        by_cases hu : isValidUuid (data.id.getD "")
        · rw [if_pos hu] at hnorm
          unfold entityParse at hnorm
          by_cases hok : (isValidUuid (data.id.getD "") &&
              ctx.schema.fields.all fun ft =>
                match alookup data.fields ft.1 with
                | some w => typeTag w == ft.2
                | none => false) = true
          · rw [if_pos hok] at hnorm
            exact absurd hnorm (by simp)
          · rw [if_neg hok] at hnorm
            exact ⟨_, (Except.error.inj hnorm).symm⟩
        · rw [if_neg hu] at hnorm
          exact ⟨_, (Except.error.inj hnorm).symm⟩
      · rw [if_neg hid] at hnorm
        unfold entityParse at hnorm
        by_cases hok : (isValidUuid genId &&
            ctx.schema.fields.all fun ft =>
              match alookup data.fields ft.1 with
              | some w => typeTag w == ft.2
              | none => false) = true
        · rw [if_pos hok] at hnorm
          exact absurd hnorm (by simp)
        · rw [if_neg hok] at hnorm
          exact ⟨_, (Except.error.inj hnorm).symm⟩
  · intro badId hbad hne hbadU
    unfold normalizeEntityM
    rw [hbad]
    simp only [Option.getD_some]
    rw [if_pos hne, if_neg (by simp [hbadU])]

/-- C7: every single create, update, or delete submits its primary-record
mutation and all index operations (the Membership Set change included) as
one batch, and the store transition is all-or-nothing: the resulting
store is either the input store unchanged (validation failure, missing
record, or aborted conditional EXEC) or the atomic application of that
whole batch, whose head is the primary mutation and whose tail is exactly
the index-operation list of the mutator. -/
theorem claim_C7_atomic_batches
    (ctx : CtxM) (s sRead sExec : Store) (now : Int) (genId id : String)
    (data patch : InputRec) (aborted : Bool) :
    ((createM ctx s now genId data).2.2 = none ∧ (createM ctx s now genId data).2.1 = s ∨
      ∃ e, (createM ctx s now genId data).2.2 =
          some (.set (keyOf ctx e.id) e :: updateIndexesOps ctx e false none) ∧
        (createM ctx s now genId data).2.1 =
          (execBatch s (.set (keyOf ctx e.id) e :: updateIndexesOps ctx e false none)).1) ∧
    ((updateM ctx sRead sExec aborted now genId id patch).2.1 = sExec ∨
      ∃ u existing, (updateM ctx sRead sExec aborted now genId id patch).2.2 =
          some (.set (keyOf ctx u.id) u :: updateIndexesOps ctx u true (some existing)) ∧
        (updateM ctx sRead sExec aborted now genId id patch).2.1 =
          (execBatch sExec (.set (keyOf ctx u.id) u ::
            updateIndexesOps ctx u true (some existing))).1) ∧
    ((deleteM ctx s id).2.2 = none ∧ (deleteM ctx s id).2.1 = s ∨
      ∃ e, (deleteM ctx s id).2.2 =
          some (.del (keyOf ctx id) :: deleteIndexesOps ctx e) ∧
        (deleteM ctx s id).2.1 =
          (execBatch s (.del (keyOf ctx id) :: deleteIndexesOps ctx e)).1) := by
  refine ⟨?_, ?_, ?_⟩
  · cases hn : normalizeEntityM ctx data true now genId with
    | error err => left; simp [createM, hn]
    | ok e => right; exact ⟨e, by simp [createM, hn], by simp [createM, hn]⟩
  · cases hr : maybeGetM ctx sRead id with
    | none => left; simp [updateM, hr]
    | some existing =>
        cases hn : normalizeEntityM ctx (mergeForUpdate existing patch) false now genId with
        | error err => left; simp [updateM, hr, hn]
        | ok u =>
            cases aborted with
            | true => left; simp [updateM, hr, hn]
            | false => right; exact ⟨u, existing, by simp [updateM, hr, hn],
                by simp [updateM, hr, hn]⟩
  · cases hr : maybeGetM ctx s id with
    | none => left; simp [deleteM, hr]
    | some e => right; exact ⟨e, by simp [deleteM, hr], by simp [deleteM, hr]⟩

end KvOrm

namespace KvOrm

/-! ### C3: what the mutator emits on the ordered index of one field -/

/-- Commands of a batch that touch one sorted-set key. -/
def zsetOpsOn (ops : List RedisOp) (k : String) : List RedisOp :=
  ops.filter (fun op =>
    match op with
    | RedisOp.zadd k' _ _ => k' == k
    | RedisOp.zrem k' _ => k' == k
    | _ => false)

theorem zsetIndexKey_inj {ctx : CtxM} {f f' : String}
    (h : zsetIndexKey ctx f = zsetIndexKey ctx f') : f = f' :=
  string_append_cancel_left h

theorem zsetOpsOn_update_field_ne (ctx : CtxM) (e : Entity) (isUp : Bool)
    (old : Option Entity) (f f' : String) (kind' : IndexKind) (hne : f' ≠ f) :
    zsetOpsOn (updateIndexesFieldOps ctx e isUp old (f', kind')) (zsetIndexKey ctx f) = [] := by
  have hkey : (zsetIndexKey ctx f' == zsetIndexKey ctx f) = false := by
    apply beq_false_of_ne
    intro h
    exact hne (zsetIndexKey_inj h)
  cases kind' with
  | set =>
      unfold updateIndexesFieldOps
      cases hov : (if isUp then old.bind (fun o => entityField o f') else none) with
      | none =>
          cases hv : entityField e f' <;>
            simp [zsetOpsOn, hov, hv, List.filter_append]
      | some ov =>
          cases hv : entityField e f' <;>
            cases hb : isUp && jsStrictNeqOpt (some ov) (entityField e f') <;>
              simp_all [zsetOpsOn, List.filter_append]
  | zset =>
      unfold updateIndexesFieldOps
      cases hv : entityField e f' with
      | none => simp [zsetOpsOn]
      | some v =>
          cases v with
          | str sv => simp [zsetOpsOn, hkey]
          | num n => simp [zsetOpsOn, jsNumberOfValue, hkey]
          | bool bv => simp [zsetOpsOn, jsNumberOfValue, hkey]
          | date t => simp [zsetOpsOn, jsNumberOfValue, hkey]

theorem zsetOpsOn_update_field_self (ctx : CtxM) (e : Entity) (isUp : Bool)
    (old : Option Entity) (f : String) :
    zsetOpsOn (updateIndexesFieldOps ctx e isUp old (f, IndexKind.zset)) (zsetIndexKey ctx f) =
      (match zencode e f with
       | some (m, sc) => [RedisOp.zadd (zsetIndexKey ctx f) sc m]
       | none => []) := by
  unfold updateIndexesFieldOps
  cases hv : entityField e f with
  | none => simp [zsetOpsOn, zencode, hv]
  | some v =>
      cases v with
      | str sv => simp [zsetOpsOn, zencode, hv]
      | num n => simp [zsetOpsOn, zencode, hv, jsNumberOfValue]
      | bool bv => simp [zsetOpsOn, zencode, hv, jsNumberOfValue]
      | date t => simp [zsetOpsOn, zencode, hv, jsNumberOfValue]

theorem zsetOpsOn_delete_field_ne (ctx : CtxM) (e : Entity)
    (f f' : String) (kind' : IndexKind) (hne : f' ≠ f) :
    zsetOpsOn (deleteIndexesFieldOps ctx e (f', kind')) (zsetIndexKey ctx f) = [] := by
  have hkey : (zsetIndexKey ctx f' == zsetIndexKey ctx f) = false := by
    apply beq_false_of_ne
    intro h
    exact hne (zsetIndexKey_inj h)
  cases kind' with
  | set =>
      unfold deleteIndexesFieldOps
      cases hv : entityField e f' <;> simp [zsetOpsOn, hv]
  | zset =>
      unfold deleteIndexesFieldOps
      cases hv : entityField e f' with
      | none => simp [zsetOpsOn, hkey]
      | some v => cases v <;> simp [zsetOpsOn, hkey]

theorem zsetOpsOn_delete_field_self (ctx : CtxM) (e : Entity) (f : String) :
    zsetOpsOn (deleteIndexesFieldOps ctx e (f, IndexKind.zset)) (zsetIndexKey ctx f) =
      [RedisOp.zrem (zsetIndexKey ctx f)
        (match entityField e f with
         | some (.str sv) => sv ++ "||" ++ e.id
         | _ => e.id)] := by
  unfold deleteIndexesFieldOps
  cases hv : entityField e f with
  | none => simp [zsetOpsOn, hv]
  | some v => cases v <;> simp [zsetOpsOn, hv]

theorem zsetOpsOn_flatten_update (ctx : CtxM) (e : Entity) (isUp : Bool)
    (old : Option Entity) (f : String) :
    ∀ (l : List (String × IndexKind)), (f, IndexKind.zset) ∈ l →
    (l.map Prod.fst).Nodup →
    zsetOpsOn ((l.map (updateIndexesFieldOps ctx e isUp old)).flatten) (zsetIndexKey ctx f) =
      (match zencode e f with
       | some (m, sc) => [RedisOp.zadd (zsetIndexKey ctx f) sc m]
       | none => []) := by
  intro l
  induction l with
  | nil => intro hmem; simp at hmem
  | cons hd tl ih =>
      intro hmem hnd
      obtain ⟨f', kind'⟩ := hd
      rw [List.map_cons, List.flatten_cons]
      unfold zsetOpsOn
      rw [List.filter_append]
      rcases List.mem_cons.mp hmem with heq | hmem'
      · have hf2 : f = f' := congrArg Prod.fst heq
        have hk : kind' = IndexKind.zset := (congrArg Prod.snd heq).symm
        subst hf2
        subst hk
        have htl : zsetOpsOn ((tl.map (updateIndexesFieldOps ctx e isUp old)).flatten)
            (zsetIndexKey ctx f) = [] := by
          unfold zsetOpsOn
          rw [List.filter_eq_nil_iff]
          intro op hop
          obtain ⟨ops', hops', hop'⟩ := List.mem_flatten.mp hop
          obtain ⟨fk', hfk', rfl⟩ := List.mem_map.mp hops'
          have hne : fk'.1 ≠ f := by
            intro hcontra
            have : f ∈ tl.map Prod.fst := hcontra ▸ List.mem_map_of_mem Prod.fst hfk'
            exact (List.nodup_cons.mp hnd).1 this
          have := zsetOpsOn_update_field_ne ctx e isUp old f fk'.1 fk'.2 hne
          unfold zsetOpsOn at this
          have hnil := List.filter_eq_nil_iff.mp this
          intro hmatch
          exact absurd hmatch (by simpa using hnil op hop')
        unfold zsetOpsOn at htl
        rw [htl, List.append_nil]
        have := zsetOpsOn_update_field_self ctx e isUp old f
        unfold zsetOpsOn at this
        exact this
      · have hne : f' ≠ f := by
          intro hcontra
          subst hcontra
          have : f' ∈ tl.map Prod.fst := List.mem_map_of_mem Prod.fst hmem'
          exact (List.nodup_cons.mp hnd).1 this
        have hhd := zsetOpsOn_update_field_ne ctx e isUp old f f' kind' hne
        unfold zsetOpsOn at hhd
        rw [hhd, List.nil_append]
        have := ih hmem' (List.nodup_cons.mp hnd).2
        unfold zsetOpsOn at this
        exact this

theorem zsetOpsOn_flatten_delete (ctx : CtxM) (e : Entity) (f : String) :
    ∀ (l : List (String × IndexKind)), (f, IndexKind.zset) ∈ l →
    (l.map Prod.fst).Nodup →
    zsetOpsOn ((l.map (deleteIndexesFieldOps ctx e)).flatten) (zsetIndexKey ctx f) =
      [RedisOp.zrem (zsetIndexKey ctx f)
        (match entityField e f with
         | some (.str sv) => sv ++ "||" ++ e.id
         | _ => e.id)] := by
  intro l
  induction l with
  | nil => intro hmem; simp at hmem
  | cons hd tl ih =>
      intro hmem hnd
      obtain ⟨f', kind'⟩ := hd
      rw [List.map_cons, List.flatten_cons]
      unfold zsetOpsOn
      rw [List.filter_append]
      rcases List.mem_cons.mp hmem with heq | hmem'
      · have hf2 : f = f' := congrArg Prod.fst heq
        have hk : kind' = IndexKind.zset := (congrArg Prod.snd heq).symm
        subst hf2
        subst hk
        have htl : zsetOpsOn ((tl.map (deleteIndexesFieldOps ctx e)).flatten)
            (zsetIndexKey ctx f) = [] := by
          unfold zsetOpsOn
          rw [List.filter_eq_nil_iff]
          intro op hop
          obtain ⟨ops', hops', hop'⟩ := List.mem_flatten.mp hop
          obtain ⟨fk', hfk', rfl⟩ := List.mem_map.mp hops'
          have hne : fk'.1 ≠ f := by
            intro hcontra
            have : f ∈ tl.map Prod.fst := hcontra ▸ List.mem_map_of_mem Prod.fst hfk'
            exact (List.nodup_cons.mp hnd).1 this
          have := zsetOpsOn_delete_field_ne ctx e f fk'.1 fk'.2 hne
          unfold zsetOpsOn at this
          have hnil := List.filter_eq_nil_iff.mp this
          intro hmatch
          exact absurd hmatch (by simpa using hnil op hop')
        unfold zsetOpsOn at htl
        rw [htl, List.append_nil]
        have := zsetOpsOn_delete_field_self ctx e f
        unfold zsetOpsOn at this
        exact this
      · have hne : f' ≠ f := by
          intro hcontra
          subst hcontra
          have : f' ∈ tl.map Prod.fst := List.mem_map_of_mem Prod.fst hmem'
          exact (List.nodup_cons.mp hnd).1 this
        have hhd := zsetOpsOn_delete_field_ne ctx e f f' kind' hne
        unfold zsetOpsOn at hhd
        rw [hhd, List.nil_append]
        have := ih hmem' (List.nodup_cons.mp hnd).2
        unfold zsetOpsOn at this
        exact this

/-- C3 (amended): on update of an entity with a declared ordered-indexed
field, the mutator always emits exactly one ZADD of the new ordered-index
representation on that field's key — even when the representation is
unchanged — and never emits a removal of the old member (for numeric
scores the member is the identifier itself, so the add overwrites the
prior score; for string members the old member is left behind).  On
deletion it emits exactly the removal of the member. -/
theorem claim_C3_amended_zset_mutation
    (ctx : CtxM) (e : Entity) (old : Option Entity) (f : String)
    (hf : (f, IndexKind.zset) ∈ ctx.indexedFields)
    (hnd : (ctx.indexedFields.map Prod.fst).Nodup) :
    zsetOpsOn (updateIndexesOps ctx e true old) (zsetIndexKey ctx f) =
      (match zencode e f with
       | some (m, sc) => [RedisOp.zadd (zsetIndexKey ctx f) sc m]
       | none => []) ∧
    zsetOpsOn (deleteIndexesOps ctx e) (zsetIndexKey ctx f) =
      [RedisOp.zrem (zsetIndexKey ctx f)
        (match entityField e f with
         | some (.str sv) => sv ++ "||" ++ e.id
         | _ => e.id)] := by
  constructor
  · unfold updateIndexesOps zsetOpsOn
    rw [List.filter_cons_of_neg (by simp)]
    have := zsetOpsOn_flatten_update ctx e true old f ctx.indexedFields hf hnd
    unfold zsetOpsOn at this
    exact this
  · unfold deleteIndexesOps zsetOpsOn
    rw [List.filter_cons_of_neg (by simp)]
    have := zsetOpsOn_flatten_delete ctx e f ctx.indexedFields hf hnd
    unfold zsetOpsOn at this
    exact this

end KvOrm

namespace KvOrm

/-- C4 (amended): a successful update whose patch does not itself supply
an id or a createdAt returns an entity with the original id and the
original createdAt, and with updatedAt set to the update's current time —
hence strictly larger than the original updatedAt exactly when the clock
has advanced past it.  (The unamended claim fails because the patch is
spread over the record: a patch carrying a valid id or a createdAt
overrides them, and within one clock millisecond updatedAt does not
strictly increase.) -/
theorem claim_C4_amended_update_identity
    (ctx : CtxM) (sRead sExec : Store) (now : Int) (genId id : String)
    (patch : InputRec) (orig u : Entity) (s' : Store) (b : Option (List RedisOp))
    (hwf : StoreWF ctx sRead)
    (hpid : patch.id = none) (hpc : patch.createdAt = none)
    (horig : maybeGetM ctx sRead id = some orig)
    (hres : updateM ctx sRead sExec false now genId id patch = (.ok (some u), s', b)) :
    u.id = id ∧ u.createdAt = orig.createdAt ∧ u.updatedAt = now ∧
      (orig.updatedAt < now → orig.updatedAt < u.updatedAt) := by
  obtain ⟨hkey, huuid⟩ := hwf.keysRecords _ _ horig
  have hoid : orig.id = id := (keyOf_inj hkey).symm
  have hone : orig.id ≠ "" := isValidUuid_ne_empty huuid
  cases hn : normalizeEntityM ctx (mergeForUpdate orig patch) false now genId with
  | error err => simp [updateM, horig, hn] at hres
  | ok u' =>
      have hu : u' = u := by
        simp only [updateM, horig, hn] at hres
        rw [Prod.mk.injEq] at hres
        exact Option.some.inj (Except.ok.inj hres.1)
      subst hu
      unfold normalizeEntityM at hn
      simp only [mergeForUpdate, hpid, hpc, Option.getD_some, Option.getD_none] at hn
      rw [if_pos hone, if_pos huuid] at hn
      unfold entityParse at hn
      by_cases hok : (isValidUuid orig.id &&
          ctx.schema.fields.all fun ft =>
            match alookup (mergeFields orig.fields patch.fields) ft.1 with
            | some w => typeTag w == ft.2
            | none => false) = true
      · rw [if_pos hok] at hn
        have he := Except.ok.inj hn
        rw [← he]
        exact ⟨hoid, rfl, rfl, fun h => h⟩
      · rw [if_neg hok] at hn
        exact absurd hn (by simp)

end KvOrm

namespace KvOrm

/-- Operators an equality index is consulted for in findWhere. -/
def setSupports (op : Operator) : Bool :=
  op == .eq || op == .ne || op == .inOp || op == .nin

/-- Operators an ordered index is consulted for in findWhere. -/
def zsetSupports (op : Operator) : Bool :=
  op == .lt || op == .lte || op == .gt || op == .gte

/-- C2 (amended): findWhere falls back to the in-memory full scan exactly
when no index is declared for the field or the operator is like, with the
like predicate evaluated as case-insensitive substring containment; when
the field has a declared index whose kind does not support the operator
(and the operator is not like), findWhere instead returns the empty list
without scanning anything.  (The unamended claim fails in that last case:
the source only scans when !indexType || operator === "like".) -/
theorem claim_C2_amended_fallback_scan
    (ctx : CtxM) (s : Store) (field : String) (op : Operator) (value : QueryVal) :
    ((alookup ctx.indexedFields field = none ∨ op = .like) →
      findWhereM ctx s field op value =
        (getAllM ctx s).filter (fun e => matchesPredicate e field op value)) ∧
    (∀ kind, alookup ctx.indexedFields field = some kind → op ≠ .like →
      (kind = .set → setSupports op = false → findWhereM ctx s field op value = []) ∧
      (kind = .zset → zsetSupports op = false → findWhereM ctx s field op value = [])) ∧
    (∀ e pat, matchesPredicate e field .like (.single (.str pat)) = true ↔
      ∃ w, entityField e field = some (.str w) ∧
        (pat.toLower).data <:+: (w.toLower).data) := by
  refine ⟨?_, ?_, ?_⟩
  · intro h
    rcases h with hnone | hlike
    · simp [findWhereM, hnone]
    · subst hlike
      cases hidx : alookup ctx.indexedFields field with
      | none => simp [findWhereM, hidx]
      | some kind => cases kind <;> simp [findWhereM, hidx]
  · intro kind hidx hnl
    constructor
    · rintro rfl hnsup
      have h1 : (op == Operator.eq || op == Operator.ne ||
          op == Operator.inOp || op == Operator.nin) = false := hnsup
      have hlikef : (op == Operator.like) = false := by
        cases op <;> simp_all
      simp [findWhereM, hidx, h1, hlikef]
    · rintro rfl hnsup
      have h2 : (op == Operator.lt || op == Operator.lte ||
          op == Operator.gt || op == Operator.gte) = false := hnsup
      have hlikef : (op == Operator.like) = false := by
        cases op <;> simp_all
      simp [findWhereM, hidx, h2, hlikef]
  · intro e pat
    unfold matchesPredicate
    cases hv : entityField e field with
    | none => simp
    | some w =>
        cases w with
        | str ws => simp [likeContains]
        | num n => simp
        | bool bv => simp
        | date t => simp

end KvOrm

namespace KvOrm

/-! ### C1 support: membership characterizations of the index reads -/

theorem jsStrictEq_refl {v : Value} (h : typeTag v ≠ .date) : jsStrictEq v v = true := by
  cases v <;> simp_all [jsStrictEq, typeTag]

theorem mem_sunionS {s : Store} {keys : List String} {i : String} :
    i ∈ sunionS s keys ↔ ∃ k ∈ keys, i ∈ smembersS s k := by
  unfold sunionS
  simp [List.mem_flatten]

theorem mem_sdiffS {s : Store} {base : String} {keys : List String} {i : String} :
    i ∈ sdiffS s base keys ↔ i ∈ smembersS s base ∧ ∀ k ∈ keys, i ∉ smembersS s k := by
  unfold sdiffS
  rw [List.mem_filter]
  simp

theorem mem_zrangebyscoreS {s : Store} {k : String} {lo hi : ScoreBound} {m : String} :
    m ∈ zrangebyscoreS s k lo hi ↔
      ∃ sc, (m, sc) ∈ zmembersS s k ∧ scoreGeB lo sc = true ∧ scoreLeB hi sc = true := by
  unfold zrangebyscoreS
  constructor
  · intro hm
    obtain ⟨p, hp, hfst⟩ := List.mem_map.mp hm
    obtain ⟨hmem, hcond⟩ := List.mem_filter.mp hp
    obtain ⟨h1, h2⟩ := Bool.and_eq_true_iff.mp hcond
    refine ⟨p.2, ?_, h1, h2⟩
    rwa [← hfst, Prod.mk.eta]
  · rintro ⟨sc, hmem, h1, h2⟩
    apply List.mem_map.mpr
    exact ⟨(m, sc), List.mem_filter.mpr ⟨hmem, by simp [h1, h2]⟩, rfl⟩

/-- All stored values of one field share one TypeScript type (the static
guarantee of the schema's z.infer type). -/
def fieldTyped (s : Store) (field : String) (τ : VType) : Prop :=
  ∀ k e w, alookup s.kvStrings k = some e → entityField e field = some w → typeTag w = τ

theorem serMatch_iff_jsEq {s : Store} {field : String} {τ : VType} {v w : Value}
    {k : String} {e : Entity}
    (hft : fieldTyped s field τ) (htag : typeTag v = τ) (hτ : τ ≠ .date)
    (he : alookup s.kvStrings k = some e) (hw : entityField e field = some w) :
    normalizeIndexValue w = normalizeIndexValue v ↔ jsStrictEq w v = true := by
  have htw : typeTag w = τ := hft k e w he hw
  constructor
  · intro hser
    have hwv : w = v := normalizeIndexValue_inj (htw.trans htag.symm)
      (fun h => hτ (htw ▸ h)) hser
    subst hwv
    exact jsStrictEq_refl (fun h => hτ (htw ▸ h))
  · intro hjs
    obtain ⟨rfl, -⟩ := jsStrictEq_iff.mp hjs
    rfl

theorem findWhereM_indexed_resolve {ctx : CtxM} {s : Store} {field : String}
    {op : Operator} {value : QueryVal} {kind : IndexKind}
    (hidx : alookup ctx.indexedFields field = some kind)
    (hsup : (kind == IndexKind.set && setSupports op ||
             kind == IndexKind.zset && zsetSupports op) = true)
    (hnl : op ≠ .like) :
    findWhereM ctx s field op value =
      (findWhereIndexed ctx s field op value).filterMap
        (fun i => alookup s.kvStrings (keyOf ctx i)) := by
  have hlikef : (op == Operator.like) = false := by
    cases op <;> simp_all
  unfold findWhereM
  rw [hidx]
  simp only [setSupports, zsetSupports] at hsup
  simp [hsup, hlikef]

/-- C9: every indexed findWhere query — any operator the field's declared
index kind answers, over either index kind — resolves an identifier list
from the index and bulk-reads it; an identifier whose primary record is
absent (a stale index entry) is silently dropped from the returned entity
list rather than failing the query. -/
theorem claim_C9_stale_entries_skipped
    (ctx : CtxM) (s : Store) (field : String) (op : Operator) (value : QueryVal)
    (kind : IndexKind) (i0 : String)
    (hidx : alookup ctx.indexedFields field = some kind)
    (hsup : (kind == IndexKind.set && setSupports op ||
             kind == IndexKind.zset && zsetSupports op) = true)
    (hwf : StoreWF ctx s) :
    findWhereM ctx s field op value =
      (findWhereIndexed ctx s field op value).filterMap
        (fun j => alookup s.kvStrings (keyOf ctx j)) ∧
    (i0 ∈ findWhereIndexed ctx s field op value →
      alookup s.kvStrings (keyOf ctx i0) = none →
      i0 ∉ (findWhereM ctx s field op value).map Entity.id) := by
  have hnl : op ≠ .like := by
    intro h
    subst h
    simp [setSupports, zsetSupports] at hsup
  have heqn := @findWhereM_indexed_resolve ctx s field op value kind hidx hsup hnl
  refine ⟨heqn, fun hstale habs hmem => ?_⟩
  rw [heqn] at hmem
  obtain ⟨-, e, hlook, -⟩ := (mem_resolvedIds hwf _ i0).mp hmem
  rw [habs] at hlook
  exact Option.noConfusion hlook

end KvOrm

namespace KvOrm

theorem c1aux_set_eq (ctx : CtxM) (s : Store) (field : String) (v : Value)
    (hwf : StoreWF ctx s) (hcons : IndexesConsistent ctx s)
    (hidx : alookup ctx.indexedFields field = some IndexKind.set)
    (hdate : typeTag v ≠ .date) (hft : fieldTyped s field (typeTag v)) (i : String) :
    i ∈ (findWhereM ctx s field .eq (.single v)).map Entity.id ↔
      i ∈ (scanFilteredM ctx s field .eq (.single v)).map Entity.id := by
  have hmemIdx : (field, IndexKind.set) ∈ ctx.indexedFields := alookup_mem hidx
  rw [findWhereM_indexed_resolve hidx (by simp [setSupports]) (by simp)]
  have hfi : findWhereIndexed ctx s field .eq (.single v) =
      smembersS s (setIndexKey ctx field v) := by
    simp [findWhereIndexed, hidx]
    rfl
  rw [hfi, mem_resolvedIds hwf, mem_scanIds hwf]
  constructor
  · rintro ⟨hin, -⟩
    obtain ⟨e2, hlook2, hid2, w, hw, hser⟩ := (hcons.setIdx field hmemIdx v i).mp hin
    refine ⟨e2, hlook2, hid2, ?_⟩
    have hjs := (serMatch_iff_jsEq hft rfl hdate hlook2 hw).mp hser
    simp [matchesPredicate, hw, hjs]
  · rintro ⟨e, hlook, hid, hmatch⟩
    refine ⟨?_, e, hlook, hid⟩
    cases hw : entityField e field with
    | none => simp [matchesPredicate, hw] at hmatch
    | some w =>
        simp only [matchesPredicate, hw] at hmatch
        apply (hcons.setIdx field hmemIdx v i).mpr
        exact ⟨e, hlook, hid, w, hw, (serMatch_iff_jsEq hft rfl hdate hlook hw).mpr hmatch⟩

theorem c1aux_set_ne (ctx : CtxM) (s : Store) (field : String) (v : Value)
    (hwf : StoreWF ctx s) (hcons : IndexesConsistent ctx s)
    (hidx : alookup ctx.indexedFields field = some IndexKind.set)
    (hdate : typeTag v ≠ .date) (hft : fieldTyped s field (typeTag v)) (i : String) :
    i ∈ (findWhereM ctx s field .ne (.single v)).map Entity.id ↔
      i ∈ (scanFilteredM ctx s field .ne (.single v)).map Entity.id := by
  have hmemIdx : (field, IndexKind.set) ∈ ctx.indexedFields := alookup_mem hidx
  rw [findWhereM_indexed_resolve hidx (by simp [setSupports]) (by simp)]
  have hfi : findWhereIndexed ctx s field .ne (.single v) =
      sdiffS s (allKey ctx) [setIndexKey ctx field v] := by
    simp [findWhereIndexed, hidx]
    rfl
  rw [hfi, mem_resolvedIds hwf, mem_scanIds hwf]
  constructor
  · rintro ⟨hin, e, hlook, hid⟩
    obtain ⟨hall, hnot⟩ := mem_sdiffS.mp hin
    refine ⟨e, hlook, hid, ?_⟩
    cases hw : entityField e field with
    | none => simp [matchesPredicate, hw]
    | some w =>
        simp only [matchesPredicate, hw]
        rw [Bool.not_eq_true']
        by_contra hjs
        rw [Bool.not_eq_false] at hjs
        have hser := (serMatch_iff_jsEq hft rfl hdate hlook hw).mpr hjs
        have : i ∈ smembersS s (setIndexKey ctx field v) :=
          (hcons.setIdx field hmemIdx v i).mpr ⟨e, hlook, hid, w, hw, hser⟩
        exact hnot _ (List.mem_singleton.mpr rfl) this
  · rintro ⟨e, hlook, hid, hmatch⟩
    refine ⟨?_, e, hlook, hid⟩
    apply mem_sdiffS.mpr
    constructor
    · exact (hcons.membership i).mpr ⟨e, hlook, hid⟩
    · intro k hk
      rw [List.mem_singleton.mp hk]
      intro hbad
      obtain ⟨e2, hlook2, hid2, w, hw, hser⟩ := (hcons.setIdx field hmemIdx v i).mp hbad
      have he : e2 = e := Option.some.inj (hlook2.symm.trans hlook)
      subst he
      have hjs := (serMatch_iff_jsEq hft rfl hdate hlook2 hw).mp hser
      simp [matchesPredicate, hw, hjs] at hmatch

end KvOrm

namespace KvOrm

theorem c1aux_set_in (ctx : CtxM) (s : Store) (field : String) (vs : List Value)
    (τ : VType) (hwf : StoreWF ctx s) (hcons : IndexesConsistent ctx s)
    (hidx : alookup ctx.indexedFields field = some IndexKind.set)
    (hdate : τ ≠ .date) (hvs : ∀ v ∈ vs, typeTag v = τ)
    (hft : fieldTyped s field τ) (i : String) :
    i ∈ (findWhereM ctx s field .inOp (.array vs)).map Entity.id ↔
      i ∈ (scanFilteredM ctx s field .inOp (.array vs)).map Entity.id := by
  have hmemIdx : (field, IndexKind.set) ∈ ctx.indexedFields := alookup_mem hidx
  rw [findWhereM_indexed_resolve hidx (by simp [setSupports]) (by simp)]
  have hfi : findWhereIndexed ctx s field .inOp (.array vs) =
      sunionS s (vs.map (fun v => setIndexKey ctx field v)) := by
    simp [findWhereIndexed, hidx]
  rw [hfi, mem_resolvedIds hwf, mem_scanIds hwf]
  have hunion : i ∈ sunionS s (vs.map (fun v => setIndexKey ctx field v)) ↔
      ∃ v' ∈ vs, i ∈ smembersS s (setIndexKey ctx field v') := by
    rw [mem_sunionS]
    constructor
    · rintro ⟨k, hk, hmem⟩
      obtain ⟨v', hv', rfl⟩ := List.mem_map.mp hk
      exact ⟨v', hv', hmem⟩
    · rintro ⟨v', hv', hmem⟩
      exact ⟨setIndexKey ctx field v', List.mem_map_of_mem _ hv', hmem⟩
  constructor
  · rintro ⟨hin, -⟩
    obtain ⟨v', hv', hmem⟩ := hunion.mp hin
    obtain ⟨e2, hlook2, hid2, w, hw, hser⟩ := (hcons.setIdx field hmemIdx v' i).mp hmem
    refine ⟨e2, hlook2, hid2, ?_⟩
    have hjs := (serMatch_iff_jsEq hft (hvs v' hv') hdate hlook2 hw).mp hser
    simp only [matchesPredicate, hw, Option.elim]
    unfold jsIncludes
    exact List.any_eq_true.mpr ⟨v', hv', hjs⟩
  · rintro ⟨e, hlook, hid, hmatch⟩
    refine ⟨?_, e, hlook, hid⟩
    cases hw : entityField e field with
    | none => simp [matchesPredicate, hw] at hmatch
    | some w =>
        simp only [matchesPredicate, hw, Option.elim] at hmatch
        unfold jsIncludes at hmatch
        obtain ⟨v', hv', hjs⟩ := List.any_eq_true.mp hmatch
        apply hunion.mpr
        refine ⟨v', hv', (hcons.setIdx field hmemIdx v' i).mpr
          ⟨e, hlook, hid, w, hw, (serMatch_iff_jsEq hft (hvs v' hv') hdate hlook hw).mpr hjs⟩⟩

theorem c1aux_set_nin (ctx : CtxM) (s : Store) (field : String) (vs : List Value)
    (τ : VType) (hwf : StoreWF ctx s) (hcons : IndexesConsistent ctx s)
    (hidx : alookup ctx.indexedFields field = some IndexKind.set)
    (hdate : τ ≠ .date) (hvs : ∀ v ∈ vs, typeTag v = τ)
    (hft : fieldTyped s field τ) (i : String) :
    i ∈ (findWhereM ctx s field .nin (.array vs)).map Entity.id ↔
      i ∈ (scanFilteredM ctx s field .nin (.array vs)).map Entity.id := by
  have hmemIdx : (field, IndexKind.set) ∈ ctx.indexedFields := alookup_mem hidx
  rw [findWhereM_indexed_resolve hidx (by simp [setSupports]) (by simp)]
  have hids : ∀ j, j ∈ findWhereIndexed ctx s field .nin (.array vs) ↔
      (j ∈ smembersS s (allKey ctx) ∧
       ∀ v' ∈ vs, j ∉ smembersS s (setIndexKey ctx field v')) := by
    intro j
    cases vs with
    | nil => simp [findWhereIndexed, hidx]
    | cons v0 vt =>
        have hlen : (v0 :: vt).length > 0 := by simp
        simp only [findWhereIndexed, hidx, hlen, if_pos]
        rw [mem_sdiffS]
        constructor
        · rintro ⟨hall, hnot⟩
          exact ⟨hall, fun v' hv' => hnot _ (List.mem_map_of_mem _ hv')⟩
        · rintro ⟨hall, hnot⟩
          refine ⟨hall, fun k hk => ?_⟩
          obtain ⟨v', hv', rfl⟩ := List.mem_map.mp hk
          exact hnot v' hv'
  rw [mem_resolvedIds hwf, mem_scanIds hwf]
  constructor
  · rintro ⟨hin, e, hlook, hid⟩
    obtain ⟨hall, hnot⟩ := (hids i).mp hin
    refine ⟨e, hlook, hid, ?_⟩
    cases hw : entityField e field with
    | none => simp [matchesPredicate, hw]
    | some w =>
        simp only [matchesPredicate, hw, Option.elim]
        rw [Bool.not_eq_true', ← Bool.not_eq_true]
        intro hmatch
        unfold jsIncludes at hmatch
        obtain ⟨v', hv', hjs⟩ := List.any_eq_true.mp hmatch
        have hser := (serMatch_iff_jsEq hft (hvs v' hv') hdate hlook hw).mpr hjs
        exact hnot v' hv' ((hcons.setIdx field hmemIdx v' i).mpr ⟨e, hlook, hid, w, hw, hser⟩)
  · rintro ⟨e, hlook, hid, hmatch⟩
    refine ⟨?_, e, hlook, hid⟩
    apply (hids i).mpr
    constructor
    · exact (hcons.membership i).mpr ⟨e, hlook, hid⟩
    · intro v' hv' hbad
      obtain ⟨e2, hlook2, hid2, w, hw, hser⟩ := (hcons.setIdx field hmemIdx v' i).mp hbad
      have he : e2 = e := Option.some.inj (hlook2.symm.trans hlook)
      subst he
      have hjs := (serMatch_iff_jsEq hft (hvs v' hv') hdate hlook hw).mp hser
      have : jsIncludes vs w = true := by
        unfold jsIncludes
        exact List.any_eq_true.mpr ⟨v', hv', hjs⟩
      simp [matchesPredicate, hw, Option.elim, this] at hmatch

end KvOrm

namespace KvOrm

theorem c1aux_zchar (ctx : CtxM) (s : Store) (field : String) (τ : VType)
    (hcons : IndexesConsistent ctx s)
    (hmemIdx : (field, IndexKind.zset) ∈ ctx.indexedFields)
    (hτ : τ = .num ∨ τ = .date) (hft : fieldTyped s field τ) (i : String) (sc : Int) :
    (i, sc) ∈ zmembersS s (zsetIndexKey ctx field) ↔
      ∃ e, alookup s.kvStrings (keyOf ctx i) = some e ∧ e.id = i ∧
        ∃ w, entityField e field = some w ∧ jsNumberOfValue w = some sc := by
  rw [hcons.zsetIdx field hmemIdx i sc]
  constructor
  · rintro ⟨i', e, hlook', hid', henc⟩
    cases hw : entityField e field with
    | none => simp [zencode, hw] at henc
    | some w =>
        have htw : typeTag w = τ := hft _ _ _ hlook' hw
        cases w with
        | str sv => rcases hτ with h | h <;> simp [typeTag, h] at htw
        | bool bv => rcases hτ with h | h <;> simp [typeTag, h] at htw
        | num a =>
            simp only [zencode, hw, jsNumberOfValue, Option.map] at henc
            have hp := Option.some.inj henc
            rw [Prod.mk.injEq] at hp
            have hie : i' = i := by rw [← hid', hp.1]
            subst hie
            exact ⟨e, hlook', hp.1, .num a, hw, by simp [jsNumberOfValue, hp.2]⟩
        | date t =>
            simp only [zencode, hw, jsNumberOfValue, Option.map] at henc
            have hp := Option.some.inj henc
            rw [Prod.mk.injEq] at hp
            have hie : i' = i := by rw [← hid', hp.1]
            subst hie
            exact ⟨e, hlook', hp.1, .date t, hw, by simp [jsNumberOfValue, hp.2]⟩
  · rintro ⟨e, hlook, hid, w, hw, hval⟩
    refine ⟨i, e, hlook, hid, ?_⟩
    cases w with
    | str sv => simp [jsNumberOfValue] at hval
    | num a =>
        have ha := Option.some.inj hval
        simp [zencode, hw, jsNumberOfValue, hid, ha]
    | bool bv =>
        have ha := Option.some.inj hval
        simp [zencode, hw, jsNumberOfValue, hid, ← ha]
    | date t =>
        have ha := Option.some.inj hval
        simp [zencode, hw, jsNumberOfValue, hid, ha]

end KvOrm

namespace KvOrm

theorem c1aux_zset_generic (ctx : CtxM) (s : Store) (field : String) (v : Value)
    (op : Operator) (lo hi : ScoreBound)
    (hwf : StoreWF ctx s) (hcons : IndexesConsistent ctx s)
    (hidx : alookup ctx.indexedFields field = some IndexKind.zset)
    (hτ : typeTag v = .num ∨ typeTag v = .date)
    (hft : fieldTyped s field (typeTag v))
    (hsup : zsetSupports op = true)
    (hfi : findWhereIndexed ctx s field op (.single v) =
      zrangebyscoreS s (zsetIndexKey ctx field) lo hi)
    (hnone : ∀ e, entityField e field = none →
      matchesPredicate e field op (.single v) = false)
    (hpred : ∀ (k : String) (e : Entity) (w : Value), alookup s.kvStrings k = some e →
      entityField e field = some w →
      ((∃ sc, jsNumberOfValue w = some sc ∧ scoreGeB lo sc = true ∧ scoreLeB hi sc = true) ↔
        matchesPredicate e field op (.single v) = true))
    (i : String) :
    i ∈ (findWhereM ctx s field op (.single v)).map Entity.id ↔
      i ∈ (scanFilteredM ctx s field op (.single v)).map Entity.id := by
  have hnl : op ≠ .like := by
    intro h
    subst h
    simp [zsetSupports] at hsup
  rw [findWhereM_indexed_resolve hidx (by simp [hsup]) hnl]
  rw [hfi, mem_resolvedIds hwf, mem_scanIds hwf]
  constructor
  · rintro ⟨hin, -⟩
    obtain ⟨sc, hmem, hge, hle⟩ := mem_zrangebyscoreS.mp hin
    obtain ⟨e, hlook, hid, w, hw, hval⟩ :=
      (c1aux_zchar ctx s field (typeTag v) hcons (alookup_mem hidx) hτ hft i sc).mp hmem
    exact ⟨e, hlook, hid, (hpred _ _ _ hlook hw).mp ⟨sc, hval, hge, hle⟩⟩
  · rintro ⟨e, hlook, hid, hmatch⟩
    cases hw : entityField e field with
    | none =>
        rw [hnone e hw] at hmatch
        exact absurd hmatch (by simp)
    | some w =>
        obtain ⟨sc, hval, hge, hle⟩ := (hpred _ _ _ hlook hw).mpr hmatch
        refine ⟨?_, e, hlook, hid⟩
        exact mem_zrangebyscoreS.mpr
          ⟨sc, (c1aux_zchar ctx s field (typeTag v) hcons (alookup_mem hidx) hτ hft i sc).mpr
            ⟨e, hlook, hid, w, hw, hval⟩, hge, hle⟩

theorem c1aux_zset_range (ctx : CtxM) (s : Store) (field : String) (v : Value)
    (op : Operator)
    (hwf : StoreWF ctx s) (hcons : IndexesConsistent ctx s)
    (hidx : alookup ctx.indexedFields field = some IndexKind.zset)
    (hop : op = .lt ∨ op = .lte ∨ op = .gt ∨ op = .gte)
    (hτ : typeTag v = .num ∨ typeTag v = .date)
    (hft : fieldTyped s field (typeTag v))
    (i : String) :
    i ∈ (findWhereM ctx s field op (.single v)).map Entity.id ↔
      i ∈ (scanFilteredM ctx s field op (.single v)).map Entity.id := by
  have hvshape : (∃ b, v = .num b) ∨ (∃ tb, v = .date tb) := by
    cases v with
    | num b => exact Or.inl ⟨b, rfl⟩
    | date tb => exact Or.inr ⟨tb, rfl⟩
    | str sv => rcases hτ with h | h <;> simp [typeTag] at h
    | bool bv => rcases hτ with h | h <;> simp [typeTag] at h
  rcases hvshape with ⟨b, rfl⟩ | ⟨tb, rfl⟩
  · rcases hop with rfl | rfl | rfl | rfl
    · refine c1aux_zset_generic ctx s field (.num b) .lt .negInf (.excl b) hwf hcons hidx
        hτ hft (by simp [zsetSupports]) (by simp [findWhereIndexed, hidx, jsNumberOfQuery,
          jsNumberOfValue]) (fun e h => by simp [matchesPredicate, h]) ?_ i
      intro k e w hk hw
      have htw := hft k e w hk hw
      cases w <;> simp [typeTag] at htw <;>
        simp [matchesPredicate, hw, jsNumberOfValue, scoreGeB, scoreLeB]
    · refine c1aux_zset_generic ctx s field (.num b) .lte .negInf (.incl b) hwf hcons hidx
        hτ hft (by simp [zsetSupports]) (by simp [findWhereIndexed, hidx, jsNumberOfQuery,
          jsNumberOfValue]) (fun e h => by simp [matchesPredicate, h]) ?_ i
      intro k e w hk hw
      have htw := hft k e w hk hw
      cases w <;> simp [typeTag] at htw <;>
        simp [matchesPredicate, hw, jsNumberOfValue, scoreGeB, scoreLeB]
    · refine c1aux_zset_generic ctx s field (.num b) .gt (.excl b) .posInf hwf hcons hidx
        hτ hft (by simp [zsetSupports]) (by simp [findWhereIndexed, hidx, jsNumberOfQuery,
          jsNumberOfValue]) (fun e h => by simp [matchesPredicate, h]) ?_ i
      intro k e w hk hw
      have htw := hft k e w hk hw
      cases w <;> simp [typeTag] at htw <;>
        simp [matchesPredicate, hw, jsNumberOfValue, scoreGeB, scoreLeB]
    · refine c1aux_zset_generic ctx s field (.num b) .gte (.incl b) .posInf hwf hcons hidx
        hτ hft (by simp [zsetSupports]) (by simp [findWhereIndexed, hidx, jsNumberOfQuery,
          jsNumberOfValue]) (fun e h => by simp [matchesPredicate, h]) ?_ i
      intro k e w hk hw
      have htw := hft k e w hk hw
      cases w <;> simp [typeTag] at htw <;>
        simp [matchesPredicate, hw, jsNumberOfValue, scoreGeB, scoreLeB]
  · rcases hop with rfl | rfl | rfl | rfl
    · refine c1aux_zset_generic ctx s field (.date tb) .lt .negInf (.excl tb) hwf hcons hidx
        hτ hft (by simp [zsetSupports]) (by simp [findWhereIndexed, hidx, jsNumberOfQuery,
          jsNumberOfValue]) (fun e h => by simp [matchesPredicate, h]) ?_ i
      intro k e w hk hw
      have htw := hft k e w hk hw
      cases w <;> simp [typeTag] at htw <;>
        simp [matchesPredicate, hw, jsNumberOfValue, scoreGeB, scoreLeB]
    · refine c1aux_zset_generic ctx s field (.date tb) .lte .negInf (.incl tb) hwf hcons hidx
        hτ hft (by simp [zsetSupports]) (by simp [findWhereIndexed, hidx, jsNumberOfQuery,
          jsNumberOfValue]) (fun e h => by simp [matchesPredicate, h]) ?_ i
      intro k e w hk hw
      have htw := hft k e w hk hw
      cases w <;> simp [typeTag] at htw <;>
        simp [matchesPredicate, hw, jsNumberOfValue, scoreGeB, scoreLeB]
    · refine c1aux_zset_generic ctx s field (.date tb) .gt (.excl tb) .posInf hwf hcons hidx
        hτ hft (by simp [zsetSupports]) (by simp [findWhereIndexed, hidx, jsNumberOfQuery,
          jsNumberOfValue]) (fun e h => by simp [matchesPredicate, h]) ?_ i
      intro k e w hk hw
      have htw := hft k e w hk hw
      cases w <;> simp [typeTag] at htw <;>
        simp [matchesPredicate, hw, jsNumberOfValue, scoreGeB, scoreLeB]
    · refine c1aux_zset_generic ctx s field (.date tb) .gte (.incl tb) .posInf hwf hcons hidx
        hτ hft (by simp [zsetSupports]) (by simp [findWhereIndexed, hidx, jsNumberOfQuery,
          jsNumberOfValue]) (fun e h => by simp [matchesPredicate, h]) ?_ i
      intro k e w hk hw
      have htw := hft k e w hk hw
      cases w <;> simp [typeTag] at htw <;>
        simp [matchesPredicate, hw, jsNumberOfValue, scoreGeB, scoreLeB]

end KvOrm

namespace KvOrm

/-- C1 (amended): on a consistent, well-formed store, findWhere through a
declared index returns exactly the identifier set of the in-memory
filtered full scan, for the cases where the index kind actually answers
the operator and the encoding is faithful: equality indexes queried with
eq / ne (single operand) or in / nin (array operand) over string, number
or boolean values of the field's type, and ordered indexes queried with
the range operators over number or Date values.  (The unamended claim
quantifies over every operator supported for the field's value type and
fails already when the declared index kind does not support the operator:
findWhere then returns the empty set without falling back to a scan.) -/
theorem claim_C1_amended_index_scan_equivalence
    (ctx : CtxM) (s : Store) (field : String) (op : Operator) (value : QueryVal)
    (hwf : StoreWF ctx s) (hcons : IndexesConsistent ctx s)
    (hcase :
      (alookup ctx.indexedFields field = some IndexKind.set ∧
        ((∃ v, value = .single v ∧ (op = .eq ∨ op = .ne) ∧
            (typeTag v = .str ∨ typeTag v = .num ∨ typeTag v = .bool) ∧
            fieldTyped s field (typeTag v)) ∨
         (∃ vs τ, value = .array vs ∧ (op = .inOp ∨ op = .nin) ∧
            (τ = .str ∨ τ = .num ∨ τ = .bool) ∧ (∀ v ∈ vs, typeTag v = τ) ∧
            fieldTyped s field τ))) ∨
      (alookup ctx.indexedFields field = some IndexKind.zset ∧
        ∃ v, value = .single v ∧ (op = .lt ∨ op = .lte ∨ op = .gt ∨ op = .gte) ∧
          (typeTag v = .num ∨ typeTag v = .date) ∧ fieldTyped s field (typeTag v))) :
    ∀ i, i ∈ (findWhereM ctx s field op value).map Entity.id ↔
      i ∈ (scanFilteredM ctx s field op value).map Entity.id := by
  intro i
  rcases hcase with ⟨hidx, hsub⟩ | ⟨hidx, v, rfl, hop, htag, hft⟩
  · rcases hsub with ⟨v, rfl, hop, hscalar, hft⟩ | ⟨vs, τ, rfl, hop, hscalar, hvs, hft⟩
    · have hdate : typeTag v ≠ .date := by
        rcases hscalar with h | h | h <;> simp [h]
      rcases hop with rfl | rfl
      · exact c1aux_set_eq ctx s field v hwf hcons hidx hdate hft i
      · exact c1aux_set_ne ctx s field v hwf hcons hidx hdate hft i
    · have hdate : τ ≠ .date := by
        rcases hscalar with h | h | h <;> simp [h]
      rcases hop with rfl | rfl
      · exact c1aux_set_in ctx s field vs τ hwf hcons hidx hdate hvs hft i
      · exact c1aux_set_nin ctx s field vs τ hwf hcons hidx hdate hvs hft i
  · exact c1aux_zset_range ctx s field v op hwf hcons hidx hop htag hft i

end KvOrm

namespace KvOrm

/-! ### Concrete fixtures for the witnesses and counterexamples -/

/-- A valid version-4 UUID used as a stored record id. -/
def uuidA : String := "11111111-1111-4111-8111-111111111111"

/-- A second valid UUID, distinct from uuidA. -/
def uuidB : String := "22222222-2222-4222-8222-222222222222"

/-- One entity type with a string field carrying an equality index and a
numeric field carrying an ordered index. -/
def fxCtx : CtxM :=
  { pfx := "p",
    schema := { fields := [("n", VType.str), ("age", VType.num)] },
    indexedFields := [("n", IndexKind.set), ("age", IndexKind.zset)] }

/-- One stored record. -/
def fxEnt : Entity :=
  { id := uuidA, createdAt := 0, updatedAt := 0,
    fields := [("n", Value.str "a"), ("age", Value.num 5)] }

/-- The same record with a different prior value of the ordered field. -/
def fxEntOld : Entity :=
  { id := uuidA, createdAt := 0, updatedAt := 0,
    fields := [("n", Value.str "a"), ("age", Value.num 4)] }

/-- A store holding exactly fxEnt with all its index entries in place. -/
def fxStore : Store :=
  { kvStrings := [(keyOf fxCtx uuidA, fxEnt)],
    sets := [(allKey fxCtx, [uuidA]), (setIndexKey fxCtx "n" (Value.str "a"), [uuidA])],
    zsets := [(zsetIndexKey fxCtx "age", [(uuidA, 5)])] }

/-- fxStore with one stale equality-index member (uuidB has no record). -/
def fxStaleStore : Store :=
  { kvStrings := [(keyOf fxCtx uuidA, fxEnt)],
    sets := [(allKey fxCtx, [uuidA]),
             (setIndexKey fxCtx "n" (Value.str "a"), [uuidA, uuidB])],
    zsets := [(zsetIndexKey fxCtx "age", [(uuidA, 5)])] }

theorem fx_ne_of_length {a b : String} (h : a.length ≠ b.length) : a ≠ b :=
  fun he => h (congrArg String.length he)

theorem fx_allKey_ne_setIndexKey (v : Value) :
    allKey fxCtx ≠ setIndexKey fxCtx "n" v := by
  intro h
  have hl := congrArg String.length h
  simp only [allKey, setIndexKey, fxCtx, String.length_append] at hl
  rw [show ("p" : String).length = 1 from rfl, show (":all" : String).length = 4 from rfl,
    show (":idx:set:" : String).length = 9 from rfl, show ("n" : String).length = 1 from rfl,
    show (":" : String).length = 1 from rfl] at hl
  omega

theorem fx_setIndexKey_n_iff (v : Value) :
    setIndexKey fxCtx "n" (Value.str "a") = setIndexKey fxCtx "n" v ↔
      normalizeIndexValue v = "a" := by
  constructor
  · intro h
    exact (string_append_cancel_left h).symm
  · intro h
    unfold setIndexKey
    rw [h]
    rfl

theorem fxStore_wf : StoreWF fxCtx fxStore := by
  constructor
  intro k e hl
  simp only [fxStore, alookup] at hl
  by_cases hk : keyOf fxCtx uuidA = k
  · rw [if_pos hk] at hl
    have he : fxEnt = e := Option.some.inj hl
    subst he
    exact ⟨hk.symm, by decide⟩
  · rw [if_neg hk] at hl
    exact absurd hl (by simp)

theorem fxStaleStore_wf : StoreWF fxCtx fxStaleStore := by
  constructor
  intro k e hl
  simp only [fxStaleStore, alookup] at hl
  by_cases hk : keyOf fxCtx uuidA = k
  · rw [if_pos hk] at hl
    have he : fxEnt = e := Option.some.inj hl
    subst he
    exact ⟨hk.symm, by decide⟩
  · rw [if_neg hk] at hl
    exact absurd hl (by simp)

theorem fx_lookup_iff (i : String) (e : Entity) :
    alookup fxStore.kvStrings (keyOf fxCtx i) = some e ↔ (i = uuidA ∧ e = fxEnt) := by
  simp only [fxStore, alookup]
  by_cases hk : keyOf fxCtx uuidA = keyOf fxCtx i
  · have hik : i = uuidA := (keyOf_inj hk).symm
    rw [if_pos hk]
    subst hik
    constructor
    · intro h
      exact ⟨rfl, (Option.some.inj h).symm⟩
    · rintro ⟨-, rfl⟩
      rfl
  · rw [if_neg hk]
    constructor
    · intro h
      exact absurd h (by simp)
    · rintro ⟨rfl, -⟩
      exact absurd rfl hk

theorem fxStore_consistent : IndexesConsistent fxCtx fxStore := by
  refine ⟨?_, ?_, ?_⟩
  · intro i
    have hsm : smembersS fxStore (allKey fxCtx) = [uuidA] := by
      simp [smembersS, fxStore, alookup]
    rw [hsm]
    constructor
    · intro hi
      have hia : i = uuidA := List.mem_singleton.mp hi
      subst hia
      exact ⟨fxEnt, (fx_lookup_iff _ _).mpr ⟨rfl, rfl⟩, rfl⟩
    · rintro ⟨e, hl, -⟩
      obtain ⟨rfl, -⟩ := (fx_lookup_iff _ _).mp hl
      exact List.mem_singleton.mpr rfl
  · intro f hf v i
    have hfn : f = "n" := by
      rcases List.mem_cons.mp hf with h | h
      · exact congrArg Prod.fst h
      · rcases List.mem_cons.mp h with h2 | h2
        · exact absurd (congrArg Prod.snd h2) (by simp)
        · simp at h2
    subst hfn
    have hsm : smembersS fxStore (setIndexKey fxCtx "n" v) =
        (if setIndexKey fxCtx "n" (Value.str "a") = setIndexKey fxCtx "n" v
         then [uuidA] else []) := by
      simp only [smembersS, fxStore, alookup, if_neg (fx_allKey_ne_setIndexKey v)]
      by_cases h2 : setIndexKey fxCtx "n" (Value.str "a") = setIndexKey fxCtx "n" v
      · simp [h2]
      · simp [h2]
    rw [hsm]
    by_cases hser : normalizeIndexValue v = "a"
    · rw [if_pos ((fx_setIndexKey_n_iff v).mpr hser)]
      constructor
      · intro hi
        have hia : i = uuidA := List.mem_singleton.mp hi
        subst hia
        refine ⟨fxEnt, (fx_lookup_iff _ _).mpr ⟨rfl, rfl⟩, rfl, Value.str "a", by decide, ?_⟩
        rw [show normalizeIndexValue (Value.str "a") = "a" from rfl, hser]
      · rintro ⟨e, hl, -, -⟩
        obtain ⟨rfl, -⟩ := (fx_lookup_iff _ _).mp hl
        exact List.mem_singleton.mpr rfl
    · rw [if_neg (fun h => hser ((fx_setIndexKey_n_iff v).mp h))]
      constructor
      · intro hi
        exact absurd hi (List.not_mem_nil i)
      · rintro ⟨e, hl, -, w, hw, hs2⟩
        obtain ⟨rfl, rfl⟩ := (fx_lookup_iff _ _).mp hl
        have hwa : w = Value.str "a" := by
          rw [show entityField fxEnt "n" = some (Value.str "a") from by decide] at hw
          exact (Option.some.inj hw).symm
        subst hwa
        exact absurd (hs2.symm.trans rfl) hser
  · intro f hf m sc
    have hfn : f = "age" := by
      rcases List.mem_cons.mp hf with h | h
      · exact absurd (congrArg Prod.snd h) (by simp)
      · rcases List.mem_cons.mp h with h2 | h2
        · exact congrArg Prod.fst h2
        · simp at h2
    subst hfn
    have hzm : zmembersS fxStore (zsetIndexKey fxCtx "age") = [(uuidA, 5)] := by
      simp [zmembersS, fxStore, alookup]
    rw [hzm]
    constructor
    · intro hm
      have hp : (m, sc) = (uuidA, 5) := List.mem_singleton.mp hm
      rw [Prod.mk.injEq] at hp
      obtain ⟨rfl, rfl⟩ := hp
      exact ⟨uuidA, fxEnt, (fx_lookup_iff _ _).mpr ⟨rfl, rfl⟩, rfl, by decide⟩
    · rintro ⟨i', e, hl, hid, henc⟩
      obtain ⟨rfl, rfl⟩ := (fx_lookup_iff _ _).mp hl
      rw [show zencode fxEnt "age" = some (uuidA, 5) from by decide] at henc
      have := Option.some.inj henc
      rw [← this]
      exact List.mem_singleton.mpr rfl

end KvOrm

namespace KvOrm

theorem fx_fieldTyped_n : fieldTyped fxStore "n" VType.str := by
  intro k e w hl hw
  simp only [fxStore, alookup] at hl
  by_cases hk : keyOf fxCtx uuidA = k
  · rw [if_pos hk] at hl
    have he : fxEnt = e := Option.some.inj hl
    subst he
    rw [show entityField fxEnt "n" = some (Value.str "a") from by decide] at hw
    rw [← Option.some.inj hw]
    rfl
  · rw [if_neg hk] at hl
    exact absurd hl (by simp)

/-- A patch touching only the user field n. -/
def fxPatch : InputRec :=
  { id := none, createdAt := none, updatedAt := none, fields := [("n", Value.str "b")] }

/-- A patch smuggling a different (valid) identifier. -/
def fxPatchId : InputRec :=
  { id := some uuidB, createdAt := none, updatedAt := none, fields := [] }

/-- A create input supplying a malformed identifier. -/
def fxBadInput : InputRec :=
  { id := some "nope", createdAt := none, updatedAt := none,
    fields := [("n", Value.str "a"), ("age", Value.num 5)] }

/-- The entity produced by updating fxEnt with fxPatch at time 20. -/
def fxUpdEnt : Entity :=
  { id := uuidA, createdAt := 0, updatedAt := 20,
    fields := [("n", Value.str "b"), ("age", Value.num 5)] }

/-- The batch deleteM submits for fxEnt. -/
def fxDelBatch : List RedisOp :=
  [.del (keyOf fxCtx uuidA), .srem (allKey fxCtx) uuidA,
   .srem (setIndexKey fxCtx "n" (Value.str "a")) uuidA,
   .zrem (zsetIndexKey fxCtx "age") uuidA]

/-- The store after that delete. -/
def fxDelStore : Store := (execBatch fxStore fxDelBatch).1

instance {ε α : Type} [DecidableEq ε] [DecidableEq α] : DecidableEq (Except ε α) :=
  fun a b =>
    match a, b with
    | .ok x, .ok y =>
        if h : x = y then .isTrue (h ▸ rfl) else .isFalse (fun hh => h (Except.ok.inj hh))
    | .error x, .error y =>
        if h : x = y then .isTrue (h ▸ rfl) else .isFalse (fun hh => h (Except.error.inj hh))
    | .ok _, .error _ => .isFalse (fun hh => Except.noConfusion hh)
    | .error _, .ok _ => .isFalse (fun hh => Except.noConfusion hh)

/-- Counterexample to C1 as stated: age is a declared (ordered) indexed
field and eq is a supported operator for its numeric value type, the
indexes are consistent with the single stored record, yet findWhere
returns the empty identifier set while the in-memory filtered full scan
returns the record. -/
theorem claim_C1_counterexample :
    IndexesConsistent fxCtx fxStore ∧
    operatorSupportedFor (typeTag (Value.num 5)) .eq = true ∧
    alookup fxCtx.indexedFields "age" = some IndexKind.zset ∧
    uuidA ∈ (scanFilteredM fxCtx fxStore "age" .eq (.single (.num 5))).map Entity.id ∧
    uuidA ∉ (findWhereM fxCtx fxStore "age" .eq (.single (.num 5))).map Entity.id :=
  ⟨fxStore_consistent, by decide, by decide, by decide, by decide⟩

/-- Witness for the amended C1 at a concrete input: an equality index on
a string field answers eq with exactly the scan's identifier set. -/
theorem claim_C1_amended_witness :
    uuidA ∈ (findWhereM fxCtx fxStore "n" .eq (.single (.str "a"))).map Entity.id ↔
      uuidA ∈ (scanFilteredM fxCtx fxStore "n" .eq (.single (.str "a"))).map Entity.id :=
  claim_C1_amended_index_scan_equivalence fxCtx fxStore "n" .eq (.single (.str "a"))
    fxStore_wf fxStore_consistent
    (Or.inl ⟨by decide, Or.inl ⟨.str "a", rfl, Or.inl rfl, Or.inl rfl, fx_fieldTyped_n⟩⟩)
    uuidA

/-- Counterexample to C2 as stated: the field has a declared index whose
kind does not support eq, so the claim requires a fallback scan — but
findWhere returns the empty list although the scan filter matches the
stored record. -/
theorem claim_C2_counterexample :
    alookup fxCtx.indexedFields "age" = some IndexKind.zset ∧
    zsetSupports .eq = false ∧ (Operator.eq ≠ Operator.like) ∧
    findWhereM fxCtx fxStore "age" .eq (.single (.num 5)) = [] ∧
    (getAllM fxCtx fxStore).filter
      (fun e => matchesPredicate e "age" .eq (.single (.num 5))) = [fxEnt] :=
  ⟨by decide, by decide, by decide, by decide, by decide⟩

/-- Witness for the amended C2: with no declared index on the field, the
like query is answered by the in-memory filtered full scan. -/
theorem claim_C2_amended_witness :
    findWhereM fxCtx fxStore "x" .like (.single (.str "A")) =
      (getAllM fxCtx fxStore).filter
        (fun e => matchesPredicate e "x" .like (.single (.str "A"))) :=
  (claim_C2_amended_fallback_scan fxCtx fxStore "x" .like (.single (.str "A"))).1
    (Or.inr rfl)

/-- Counterexample to C3 as stated: updating with an unchanged ordered
representation (old entity identical to the new one) still emits a ZADD
on the field's ordered index, and updating with a changed value emits
only the ZADD of the new member — no removal of the old member. -/
theorem claim_C3_counterexample :
    zsetOpsOn (updateIndexesOps fxCtx fxEnt true (some fxEnt)) (zsetIndexKey fxCtx "age") =
      [RedisOp.zadd (zsetIndexKey fxCtx "age") 5 uuidA] ∧
    zsetOpsOn (updateIndexesOps fxCtx fxEnt true (some fxEntOld)) (zsetIndexKey fxCtx "age") =
      [RedisOp.zadd (zsetIndexKey fxCtx "age") 5 uuidA] :=
  ⟨by decide, by decide⟩

/-- Witness for the amended C3 at a concrete input. -/
theorem claim_C3_amended_witness :
    zsetOpsOn (updateIndexesOps fxCtx fxEnt true (some fxEntOld)) (zsetIndexKey fxCtx "age") =
      (match zencode fxEnt "age" with
       | some (m, sc) => [RedisOp.zadd (zsetIndexKey fxCtx "age") sc m]
       | none => []) ∧
    zsetOpsOn (deleteIndexesOps fxCtx fxEnt) (zsetIndexKey fxCtx "age") =
      [RedisOp.zrem (zsetIndexKey fxCtx "age")
        (match entityField fxEnt "age" with
         | some (.str sv) => sv ++ "||" ++ fxEnt.id
         | _ => fxEnt.id)] :=
  claim_C3_amended_zset_mutation fxCtx fxEnt (some fxEntOld) "age" (by decide) (by decide)

/-- Counterexample to C4 as stated: a patch carrying a valid different id
makes the successful update return an entity whose id is the patch's id,
not the requested one (and the original record is still stored under the
old key). -/
theorem claim_C4_counterexample :
    (updateM fxCtx fxStore fxStore false 20 uuidB uuidA fxPatchId).1 =
      .ok (some { id := uuidB, createdAt := 0, updatedAt := 20,
                  fields := [("n", Value.str "a"), ("age", Value.num 5)] }) ∧
    uuidB ≠ uuidA ∧
    alookup (updateM fxCtx fxStore fxStore false 20 uuidB uuidA fxPatchId).2.1.kvStrings
      (keyOf fxCtx uuidA) = some fxEnt :=
  ⟨by decide, by decide, by decide⟩

/-- Witness for the amended C4 at a concrete input. -/
theorem claim_C4_amended_witness :
    fxUpdEnt.id = uuidA ∧ fxUpdEnt.createdAt = fxEnt.createdAt ∧
      fxUpdEnt.updatedAt = 20 ∧
      (fxEnt.updatedAt < 20 → fxEnt.updatedAt < fxUpdEnt.updatedAt) :=
  claim_C4_amended_update_identity fxCtx fxStore fxStore 20 uuidB uuidA fxPatch fxEnt
    fxUpdEnt (updateM fxCtx fxStore fxStore false 20 uuidB uuidA fxPatch).2.1
    (updateM fxCtx fxStore fxStore false 20 uuidB uuidA fxPatch).2.2
    fxStore_wf rfl rfl (by decide) (by decide)

/-- Witness for C5 at a concrete input. -/
theorem claim_C5_conflict_no_retry_witness :
    updateM fxCtx fxStore fxStore true 20 uuidB uuidA fxPatch =
      (.ok none, fxStore,
       some (.set (keyOf fxCtx fxUpdEnt.id) fxUpdEnt ::
         updateIndexesOps fxCtx fxUpdEnt true (some fxEnt))) ∧
    updateOrFailM fxCtx fxStore fxStore true 20 uuidB uuidA fxPatch =
      (.error (.conflict (keyOf fxCtx uuidA)), fxStore,
       some (.set (keyOf fxCtx fxUpdEnt.id) fxUpdEnt ::
         updateIndexesOps fxCtx fxUpdEnt true (some fxEnt))) :=
  claim_C5_conflict_no_retry fxCtx fxStore fxStore 20 uuidB uuidA fxPatch fxEnt fxUpdEnt
    (by decide) (by decide)

/-- Witness for C6 at a concrete input: a malformed supplied id aborts
create with the validation error and an untouched store. -/
theorem claim_C6_validation_witness :
    createM fxCtx fxStore 20 uuidB fxBadInput =
      (.error (.validation ("Invalid UUID provided for id: " ++ "nope")), fxStore, none) := by
  have h := claim_C6_validation_no_mutation fxCtx fxStore 20 uuidB fxBadInput
  have hn := h.2 "nope" rfl (by decide) (by decide)
  exact (h.1 _ hn).1

/-- Witness for C8 at a concrete input. -/
theorem claim_C8_delete_completeness_witness :
    (∀ f, (f, IndexKind.set) ∈ fxCtx.indexedFields →
        ∀ v, uuidA ∉ smembersS fxDelStore (setIndexKey fxCtx f v)) ∧
    (∀ f, (f, IndexKind.zset) ∈ fxCtx.indexedFields →
        ∀ m sc, (m, sc) ∈ zmembersS fxDelStore (zsetIndexKey fxCtx f) →
          m ≠ uuidA ∧ ¬ (("||" ++ uuidA).data <:+ m.data)) ∧
    uuidA ∉ smembersS fxDelStore (allKey fxCtx) :=
  claim_C8_delete_completeness fxCtx fxStore uuidA fxDelStore fxDelBatch
    fxStore_wf fxStore_consistent (by decide)

/-- Witness for C9 at a concrete input: uuidB is a stale index member
with no primary record and is silently dropped from the result. -/
theorem claim_C9_stale_entries_witness :
    findWhereM fxCtx fxStaleStore "n" .eq (.single (.str "a")) =
      (findWhereIndexed fxCtx fxStaleStore "n" .eq (.single (.str "a"))).filterMap
        (fun j => alookup fxStaleStore.kvStrings (keyOf fxCtx j)) ∧
    (uuidB ∈ findWhereIndexed fxCtx fxStaleStore "n" .eq (.single (.str "a")) →
      alookup fxStaleStore.kvStrings (keyOf fxCtx uuidB) = none →
      uuidB ∉ (findWhereM fxCtx fxStaleStore "n" .eq (.single (.str "a"))).map Entity.id) :=
  claim_C9_stale_entries_skipped fxCtx fxStaleStore "n" .eq (.single (.str "a"))
    IndexKind.set uuidB (by decide) (by decide) fxStaleStore_wf

/-- Witness for C10 at a concrete input. -/
theorem claim_C10_delete_missing_witness :
    deleteM fxCtx fxStore uuidB = (false, fxStore, none) :=
  claim_C10_delete_missing_frame fxCtx fxStore uuidB (by decide)

end KvOrm
